import Mathlib

/-!
Verification of the pack delta dependency tree
(`src/git-pack/src/cache/delta/mod.rs`) and of the pack index writer
(`src/git-odb/src/pack/index/write/encode.rs`).

The Rust code is shallowly embedded: the `VecDeque` of items is a `List`
read front to back (`push_front` is `cons`, `push_back` is append at the
end), `as_slices` is `(take roots, drop roots)`, mutation is explicit
state passing, and fallible methods return the possible error together
with the state after the call (mirroring `&mut self` plus `Result`).
-/

namespace Delta

/-- `Error` from `cache/delta/mod.rs`; the spec names this variant
`IncreasingOffsetViolation{ last, current }`. -/
inductive TreeError where
  | InvariantIncreasingPackOffset (last_pack_offset : Nat) (pack_offset : Nat)
deriving DecidableEq, Repr

/-- `traverse::Error::OutOfPackRefDelta`; the spec names it
`DanglingBaseOffset{ base_offset }`. -/
inductive TraverseError where
  | OutOfPackRefDelta (base_pack_offset : Nat)
deriving DecidableEq, Repr

/-- `Item<T>` from `cache/delta/mod.rs`. -/
structure Item (T : Type) where
  offset : Nat
  next_offset : Nat
  data : T
  children : List Nat
deriving DecidableEq

/-- `Tree<T>` from `cache/delta/mod.rs`: `items` models the `VecDeque`
front to back, so its first `roots` elements are the roots region and the
rest the children region. -/
structure Tree (T : Type) where
  items : List (Item T)
  roots : Nat
  last_index : Nat
  future_child_offsets : List (Nat × Nat)
deriving DecidableEq

/-- In-place update of one list element, as `items[i].field = v` does. -/
def updateAt (l : List α) (i : Nat) (f : α → α) : List α :=
  match l, i with
  | [], _ => []
  | x :: xs, 0 => f x :: xs
  | x :: xs, i + 1 => x :: updateAt xs i f

/-- `core::slice::binary_search_by` specialised to a list of keys:
`cmp` compares a slice element against the probe; returns `Ok(mid)` as
`some mid`, `Err(left)` as `none` (the insertion point is unused by the
callers modelled here).  The `while` loop is modelled with a fuel
argument; every iteration shrinks `right - left`, so the fuel
`keys.length` passed by `rustBinarySearch` always runs the loop to
completion. -/
def bsearchGo (cmp : Nat → Ordering) (keys : List Nat) :
    Nat → Nat → Nat → Option Nat
  | 0, _, _ => none
  | fuel + 1, left, right =>
    if left < right then
      match cmp (keys.getD (left + (right - left) / 2) 0) with
      | .lt => bsearchGo cmp keys fuel (left + (right - left) / 2 + 1) right
      | .gt => bsearchGo cmp keys fuel left (left + (right - left) / 2)
      | .eq => some (left + (right - left) / 2)
    else none

def rustBinarySearch (cmp : Nat → Ordering) (keys : List Nat) : Option Nat :=
  bsearchGo cmp keys keys.length 0 keys.length

/-- The comparison sequence is monotone along the keys: once `lt` going
down, once `gt` going up.  Holds for a comparator against a probe on a
sorted key list; exactly what `binary_search_by` requires. -/
def CmpMono (cmp : Nat → Ordering) (keys : List Nat) : Prop :=
  ∀ i j, i ≤ j → j < keys.length →
    (cmp (keys.getD j 0) = Ordering.lt → cmp (keys.getD i 0) = Ordering.lt) ∧
    (cmp (keys.getD i 0) = Ordering.gt → cmp (keys.getD j 0) = Ordering.gt)

def appendChild (c : Nat) (it : Item T) : Item T :=
  { it with children := it.children ++ [c] }

def setNext (v : Nat) (it : Item T) : Item T :=
  { it with next_offset := v }

/-- `Tree::assert_is_incrementing_and_update_next_offset`.  The impossible
out-of-bounds read of `items[last_index]` (a Rust panic, never reached on
trees built through the public API) is mapped to a no-op. -/
def assert_is_incrementing_and_update_next_offset (t : Tree T)
    (offset : Nat) : Option TreeError × Tree T :=
  if t.items.isEmpty then (none, t)
  else
    match t.items[t.last_index]? with
    | none => (none, t)
    | some item =>
      if offset ≤ item.offset then
        (some (.InvariantIncreasingPackOffset item.offset offset), t)
      else
        (none, { t with items := updateAt t.items t.last_index (setNext offset) })

/-- The search pattern shared by `add_child` and by seal-time resolution:
binary search the children slice by offset key, then the roots slice with
the reversed comparator (`parent_offset.cmp(&i.offset)`); the result is
translated to an index into the whole `items` deque. -/
def lookupBase (roots_len : Nat) (items : List (Item T))
    (base_offset : Nat) : Option Nat :=
  match rustBinarySearch (fun k => compare k base_offset)
      ((items.drop roots_len).map (fun it => it.offset)) with
  | some i => some (roots_len + i)
  | none =>
    match rustBinarySearch (fun k => compare base_offset k)
        ((items.take roots_len).map (fun it => it.offset)) with
    | some i => some i
    | none => none

/-- The state built by the tail of `Tree::add_root` once the offset
check has passed: `last_index = 0`, push the item at the front, bump the
root count. -/
def addRootInner (t1 : Tree T) (offset : Nat) (data : T) : Tree T :=
  { items := ⟨offset, 0, data, []⟩ :: t1.items,
    roots := t1.roots + 1,
    last_index := 0,
    future_child_offsets := t1.future_child_offsets }

/-- `Tree::add_root`. -/
def add_root (t : Tree T) (offset : Nat) (data : T) :
    Option TreeError × Tree T :=
  match assert_is_incrementing_and_update_next_offset t offset with
  | (some e, t1) => (some e, t1)
  | (none, t1) => (none, addRootInner t1 offset data)

/-- The state built by the tail of `Tree::add_child` once the offset
check has passed: link the new child index immediately when its base is
found (children slice first, then roots), otherwise queue the pair; then
push the item at the back and point `last_index` at it. -/
def addChildInner (t1 : Tree T) (base_offset offset : Nat) (data : T) :
    Tree T :=
  let next_child_index := (t1.items.drop t1.roots).length
  let t2 :=
    match lookupBase t1.roots t1.items base_offset with
    | some j =>
      { t1 with items := updateAt t1.items j (appendChild next_child_index) }
    | none =>
      { t1 with future_child_offsets :=
          t1.future_child_offsets ++ [(base_offset, next_child_index)] }
  { t2 with items := t2.items ++ [⟨offset, 0, data, []⟩],
            last_index := t1.items.length }

/-- `Tree::add_child`. -/
def add_child (t : Tree T) (base_offset offset : Nat) (data : T) :
    Option TreeError × Tree T :=
  match assert_is_incrementing_and_update_next_offset t offset with
  | (some e, t1) => (some e, t1)
  | (none, t1) => (none, addChildInner t1 base_offset offset data)

/-- The `for`-over-`drain(..)` loop inside
`set_pack_entries_end_and_resolve_ref_offsets`: pending pairs are taken in
order; the first dangling base offset aborts the loop. -/
def resolveLoop (roots_len : Nat) :
    List (Item T) → List (Nat × Nat) → Option TraverseError × List (Item T)
  | items, [] => (none, items)
  | items, (parent_offset, child_index) :: rest =>
    match lookupBase roots_len items parent_offset with
    | some j =>
      resolveLoop roots_len (updateAt items j (appendChild child_index)) rest
    | none => (some (.OutOfPackRefDelta parent_offset), items)

/-- `Tree::set_pack_entries_end_and_resolve_ref_offsets` (the spec's
`seal`).  Since the loop iterates a `drain(..)`, the pending list is empty
after the call even when the loop aborts early: dropping the `Drain`
removes the unyielded elements too. -/
def set_pack_entries_end_and_resolve_ref_offsets (t : Tree T)
    (pack_entries_end : Nat) : Option TraverseError × Tree T :=
  if t.items.isEmpty then (none, t)
  else
    let step : Option TraverseError × Tree T :=
      if t.future_child_offsets.isEmpty then (none, t)
      else
        match resolveLoop t.roots t.items t.future_child_offsets with
        | (some e, items1) =>
          (some e, { t with items := items1, future_child_offsets := [] })
        | (none, items1) =>
          (none, { t with items := items1, future_child_offsets := [] })
    match step with
    | (some e, t1) => (some e, t1)
    | (none, t1) =>
      (none, { t1 with
                 items := updateAt t1.items t1.last_index
                   (setNext pack_entries_end) })

/-- Short name used by the spec for
`set_pack_entries_end_and_resolve_ref_offsets`. -/
def sealTree (t : Tree T) (pack_entries_end : Nat) :
    Option TraverseError × Tree T :=
  set_pack_entries_end_and_resolve_ref_offsets t pack_entries_end

/-- `Tree::with_capacity` — the reserved capacity does not affect the
abstract state. -/
def with_capacity (_num_objects : Nat) : Tree T :=
  { items := [], roots := 0, last_index := 0, future_child_offsets := [] }

/-- One public build call. -/
inductive Op (T : Type) where
  | root (offset : Nat) (data : T)
  | child (base_offset offset : Nat) (data : T)
deriving DecidableEq

def opOffset : Op T → Nat
  | .root o _ => o
  | .child _ o _ => o

def applyOp (t : Tree T) : Op T → Option TreeError × Tree T
  | .root o d => add_root t o d
  | .child b o d => add_child t b o d

/-- Runs a sequence of build calls, failing if any call fails. -/
def buildFrom (t : Tree T) : List (Op T) → Option (Tree T)
  | [] => some t
  | op :: rest =>
    match applyOp t op with
    | (none, t1) => buildFrom t1 rest
    | (some _, _) => none

/-- A tree built by a successful sequence of `add_root`/`add_child` calls
on a fresh tree. -/
def build (ops : List (Op T)) : Option (Tree T) :=
  buildFrom (with_capacity ops.length) ops

end Delta

namespace Encode

/-- One element of `entries_sorted_by_oid: Vec<(u64, owned::Id, u32)>`.
Of the object id only its first byte (`id.as_slice()[0]`, a u8) takes
part in the offset/fanout logic modelled here. -/
structure Entry where
  pack_offset : Nat
  id_first_byte : Nat
  crc32 : Nat
deriving DecidableEq, Repr

def LARGE_OFFSET_THRESHOLD : Nat := 0x7fffffff

def HIGH_BIT : Nat := 0x80000000

/-- `needs_64bit_offsets` in `to_write`: decided by the offset of the
LAST id-sorted entry (`entries_sorted_by_oid.last()`); `to_write` asserts
the list non-empty, so the `expect` never fires. -/
def needs_64bit_offsets (entries : List Entry) : Bool :=
  match entries.getLast? with
  | some e => decide (e.pack_offset > LARGE_OFFSET_THRESHOLD)
  | none => false

/-- The fanout-filling part of the entry loop in `to_write`, over the id
first bytes in order.  The table starts all zero; when the running
`first_byte` (a u8) differs from the current id's first byte, the entry
index (`idx as u32`, later serialised big-endian) is stored at position
`first_byte`, which is then incremented once. -/
def fanoutLoop : List Nat → Nat → Nat → (Nat → Nat) → (Nat → Nat)
  | [], _, _, fan => fan
  | b :: rest, idx, first_byte, fan =>
    if first_byte ≠ b then
      fanoutLoop rest (idx + 1) ((first_byte + 1) % 256)
        (Function.update fan first_byte (idx % 2 ^ 32))
    else
      fanoutLoop rest (idx + 1) first_byte fan

/-- `fan_out_be` after the entry loop, as a function from table position
to stored counter value. -/
def fan_out_be (entries : List Entry) : Nat → Nat :=
  fanoutLoop (entries.map (fun e => e.id_first_byte)) 0 0 (fun _ => 0)

/-- The offset-collecting part of the entry loop: when in 64-bit mode and
the entry's offset is large, `(offsets64_be.len() as u32) & HIGH_BIT` (a
bitwise AND) is pushed onto `offsets_be` and the 64-bit offset onto
`offsets64_be`; otherwise the entry contributes nothing. -/
def offsetsLoop (needs64 : Bool) :
    List Entry → List Nat → List Nat → List Nat × List Nat
  | [], offs, offs64 => (offs, offs64)
  | e :: rest, offs, offs64 =>
    if needs64 ∧ 0x7fffffff < e.pack_offset then
      offsetsLoop needs64 rest
        (offs ++ [Nat.land (offs64.length % 2 ^ 32) HIGH_BIT])
        (offs64 ++ [e.pack_offset])
    else
      offsetsLoop needs64 rest offs offs64

def offsets_be (entries : List Entry) : List Nat :=
  (offsetsLoop (needs_64bit_offsets entries) entries [] []).1

def offsets64_be (entries : List Entry) : List Nat :=
  (offsetsLoop (needs_64bit_offsets entries) entries [] []).2

/-- The u32 offset-table section `to_write` emits: the collected
`offsets_be` words when any 64-bit offset was collected, otherwise each
`pack_offset as u32` (truncating). -/
def offset_table (entries : List Entry) : List Nat :=
  if (offsets64_be entries).length > 0 then offsets_be entries
  else entries.map (fun e => e.pack_offset % 2 ^ 32)

/-- Whether the 64-bit overflow section is written
(`offsets64_be.len() > 0`). -/
def overflow_section_present (entries : List Entry) : Bool :=
  decide ((offsets64_be entries).length > 0)

end Encode

namespace Delta

/-- The offsets of all stored items, front to back. -/
def offsetsOf (t : Tree T) : List Nat := t.items.map (fun it => it.offset)

/-- `items[last_index].offset`: the offset of the most recently inserted
item (0 for the empty tree, where the index is never read). -/
def lastOffset (t : Tree T) : Nat :=
  match t.items[t.last_index]? with
  | some it => it.offset
  | none => 0

/-- The byte range of an item, the part of it never touched by seal-time
child resolution. -/
def posOf (it : Item T) : Nat × Nat := (it.offset, it.next_offset)

/-- The structural invariant every tree reachable through successful
`add_root`/`add_child` calls satisfies. -/
structure Inv (t : Tree T) : Prop where
  roots_le : t.roots ≤ t.items.length
  last_lt : t.items ≠ [] → t.last_index < t.items.length
  roots_sorted :
    List.Pairwise (fun a b => b < a) ((offsetsOf t).take t.roots)
  children_sorted :
    List.Pairwise (fun a b => a < b) ((offsetsOf t).drop t.roots)
  off_distinct : List.Pairwise (fun a b => a ≠ b) (offsetsOf t)
  last_max : ∀ i, (hi : i < t.items.length) → i ≠ t.last_index →
    t.items[i].offset < lastOffset t
  next_gt : ∀ i, (hi : i < t.items.length) → i ≠ t.last_index →
    t.items[i].offset < t.items[i].next_offset
  pending_ne : t.future_child_offsets ≠ [] → t.items ≠ []

end Delta

namespace Delta

@[simp] theorem length_updateAt (l : List α) (i : Nat) (f : α → α) :
    (updateAt l i f).length = l.length := by
  induction l generalizing i with
  | nil => rfl
  | cons x xs ih => cases i <;> simp [updateAt, ih]

theorem getElem?_updateAt_self (l : List α) (i : Nat) (f : α → α) :
    (updateAt l i f)[i]? = l[i]?.map f := by
  induction l generalizing i with
  | nil => simp [updateAt]
  | cons x xs ih => cases i <;> simp [updateAt, ih]

theorem getElem?_updateAt_ne (l : List α) (i : Nat) (f : α → α) (j : Nat)
    (h : j ≠ i) : (updateAt l i f)[j]? = l[j]? := by
  induction l generalizing i j with
  | nil => simp [updateAt]
  | cons x xs ih =>
    cases i with
    | zero => cases j with
      | zero => exact absurd rfl h
      | succ j => simp [updateAt]
    | succ i => cases j with
      | zero => simp [updateAt]
      | succ j => simpa [updateAt] using ih i j (by omega)

theorem map_updateAt (l : List α) (i : Nat) (f : α → α) (g : α → β)
    (hg : ∀ x, g (f x) = g x) : (updateAt l i f).map g = l.map g := by
  induction l generalizing i with
  | nil => rfl
  | cons x xs ih => cases i <;> simp [updateAt, hg, ih]

theorem bsearchGo_some (cmp : Nat → Ordering) (keys : List Nat) :
    ∀ fuel left right i, bsearchGo cmp keys fuel left right = some i →
      left ≤ i ∧ i < right ∧ cmp (keys.getD i 0) = Ordering.eq := by
  intro fuel
  induction fuel with
  | zero => intro left right i h; exact Option.noConfusion h
  | succ fuel ih =>
    intro left right i h
    by_cases hlr : left < right
    · rcases hc : cmp (keys.getD (left + (right - left) / 2) 0) with _ | _ | _
      · rw [bsearchGo, if_pos hlr, hc] at h
        have h2 := ih _ _ _ h
        exact ⟨by omega, h2.2.1, h2.2.2⟩
      · rw [bsearchGo, if_pos hlr, hc] at h
        have h2 : left + (right - left) / 2 = i := Option.some.inj h
        subst h2
        exact ⟨by omega, by omega, hc⟩
      · rw [bsearchGo, if_pos hlr, hc] at h
        have h2 := ih _ _ _ h
        exact ⟨h2.1, by omega, h2.2.2⟩
    · rw [bsearchGo, if_neg hlr] at h
      exact Option.noConfusion h

theorem bsearchGo_none (cmp : Nat → Ordering) (keys : List Nat)
    (hmono : CmpMono cmp keys) :
    ∀ fuel left right, right - left ≤ fuel → right ≤ keys.length →
      bsearchGo cmp keys fuel left right = none →
      ∀ k, left ≤ k → k < right → cmp (keys.getD k 0) ≠ Ordering.eq := by
  intro fuel
  induction fuel with
  | zero => intro left right hf hlen h k hk1 hk2; omega
  | succ fuel ih =>
    intro left right hf hlen h k hk1 hk2
    by_cases hlr : left < right
    · rcases hc : cmp (keys.getD (left + (right - left) / 2) 0) with _ | _ | _
      · rw [bsearchGo, if_pos hlr, hc] at h
        by_cases hk : left + (right - left) / 2 + 1 ≤ k
        · exact ih _ _ (by omega) hlen h k hk hk2
        · have hklt :=
            (hmono k (left + (right - left) / 2) (by omega) (by omega)).1 hc
          intro hq
          rw [hq] at hklt
          exact Ordering.noConfusion hklt
      · rw [bsearchGo, if_pos hlr, hc] at h
        exact Option.noConfusion h
      · rw [bsearchGo, if_pos hlr, hc] at h
        by_cases hk : k < left + (right - left) / 2
        · exact ih _ _ (by omega) (by omega) h k hk1 hk
        · have hkgt :=
            (hmono (left + (right - left) / 2) k (by omega) (by omega)).2 hc
          intro hq
          rw [hq] at hkgt
          exact Ordering.noConfusion hkgt
    · omega

theorem rustBinarySearch_some {cmp : Nat → Ordering} {keys : List Nat}
    {i : Nat} (h : rustBinarySearch cmp keys = some i) :
    i < keys.length ∧ cmp (keys.getD i 0) = Ordering.eq := by
  have h2 := bsearchGo_some cmp keys keys.length 0 keys.length i h
  exact ⟨h2.2.1, h2.2.2⟩

theorem rustBinarySearch_none {cmp : Nat → Ordering} {keys : List Nat}
    (hmono : CmpMono cmp keys) (h : rustBinarySearch cmp keys = none) :
    ∀ k, k < keys.length → cmp (keys.getD k 0) ≠ Ordering.eq := by
  intro k hk
  exact bsearchGo_none cmp keys hmono keys.length 0 keys.length (by omega)
    le_rfl h k (Nat.zero_le k) hk


end Delta

namespace Delta

theorem isEmpty_false_of_ne {l : List α} (h : l ≠ []) :
    ¬ l.isEmpty = true := by
  simp [List.isEmpty_iff, h]

theorem lastOffset_eq (t : Tree T) (hlt : t.last_index < t.items.length) :
    lastOffset t = t.items[t.last_index].offset := by
  simp [lastOffset, List.getElem?_eq_getElem hlt]

theorem assert_incr_empty (t : Tree T) (offset : Nat) (h : t.items = []) :
    assert_is_incrementing_and_update_next_offset t offset = (none, t) := by
  unfold assert_is_incrementing_and_update_next_offset
  rw [h]
  rfl

theorem assert_incr_le (t : Tree T) (offset : Nat)
    (hlt : t.last_index < t.items.length) (hle : offset ≤ lastOffset t) :
    assert_is_incrementing_and_update_next_offset t offset =
      (some (.InvariantIncreasingPackOffset (lastOffset t) offset), t) := by
  have hne : t.items ≠ [] := by
    intro hh
    rw [hh] at hlt
    simp at hlt
  rw [lastOffset_eq t hlt] at hle ⊢
  unfold assert_is_incrementing_and_update_next_offset
  rw [if_neg (isEmpty_false_of_ne hne)]
  split
  · rename_i heq
    rw [List.getElem?_eq_getElem hlt] at heq
    exact Option.noConfusion heq
  · rename_i item heq
    rw [List.getElem?_eq_getElem hlt] at heq
    have hitem := Option.some.inj heq
    subst hitem
    rw [if_pos hle]

theorem assert_incr_gt (t : Tree T) (offset : Nat)
    (hlt : t.last_index < t.items.length) (hgt : lastOffset t < offset) :
    assert_is_incrementing_and_update_next_offset t offset =
      (none, { t with items := updateAt t.items t.last_index (setNext offset) }) := by
  have hne : t.items ≠ [] := by
    intro hh
    rw [hh] at hlt
    simp at hlt
  rw [lastOffset_eq t hlt] at hgt
  unfold assert_is_incrementing_and_update_next_offset
  rw [if_neg (isEmpty_false_of_ne hne)]
  split
  · rename_i heq
    rw [List.getElem?_eq_getElem hlt] at heq
    exact Option.noConfusion heq
  · rename_i item heq
    rw [List.getElem?_eq_getElem hlt] at heq
    have hitem := Option.some.inj heq
    subst hitem
    rw [if_neg (by omega)]

theorem assert_incr_oob (t : Tree T) (offset : Nat)
    (hq : t.items[t.last_index]? = none) :
    assert_is_incrementing_and_update_next_offset t offset = (none, t) := by
  unfold assert_is_incrementing_and_update_next_offset
  by_cases hie : t.items.isEmpty = true
  · rw [if_pos hie]
  · rw [if_neg hie, hq]

theorem assert_incr_fail_unchanged {t : Tree T} {offset : Nat} {e : TreeError}
    (h : (assert_is_incrementing_and_update_next_offset t offset).1 = some e) :
    (assert_is_incrementing_and_update_next_offset t offset).2 = t := by
  by_cases hemp : t.items = []
  · rw [assert_incr_empty t offset hemp] at h
    exact Option.noConfusion h
  · by_cases hlt : t.last_index < t.items.length
    · by_cases hle : offset ≤ lastOffset t
      · rw [assert_incr_le t offset hlt hle]
      · rw [assert_incr_gt t offset hlt (by omega)] at h
        exact Option.noConfusion h
    · rw [assert_incr_oob t offset (List.getElem?_eq_none (by omega))]

theorem Inv.all_le {t : Tree T} (h : Inv t) (i : Nat)
    (hi : i < t.items.length) : t.items[i].offset ≤ lastOffset t := by
  by_cases hil : i = t.last_index
  · subst hil
    rw [lastOffset_eq t hi]
  · exact le_of_lt (h.last_max i hi hil)

theorem Inv.mem_le {t : Tree T} (h : Inv t) {it : Item T}
    (hm : it ∈ t.items) : it.offset ≤ lastOffset t := by
  obtain ⟨i, hi, he⟩ := List.getElem_of_mem hm
  exact he ▸ h.all_le i hi

theorem inv_with_capacity (n : Nat) : Inv (with_capacity n : Tree T) := by
  constructor <;> simp [with_capacity, offsetsOf]

/-- Any two stored items with equal offsets coincide (distinctness of
offsets). -/
theorem Inv.offset_inj {t : Tree T} (h : Inv t) {it1 it2 : Item T}
    (h1 : it1 ∈ t.items) (h2 : it2 ∈ t.items)
    (ho : it1.offset = it2.offset) : it1 = it2 := by
  obtain ⟨i1, hi1, he1⟩ := List.getElem_of_mem h1
  obtain ⟨i2, hi2, he2⟩ := List.getElem_of_mem h2
  by_cases hii : i1 = i2
  · subst hii
    rw [← he1, ← he2]
  · have hd := h.off_distinct
    rw [List.pairwise_iff_getElem] at hd
    have hlen : (offsetsOf t).length = t.items.length := by
      simp [offsetsOf]
    rcases Nat.lt_or_ge i1 i2 with hlt | hge
    · have := hd i1 i2 (by omega) (by omega) hlt
      simp only [offsetsOf, List.getElem_map] at this
      rw [he1, he2, ho] at this
      exact absurd rfl this
    · have := hd i2 i1 (by omega) (by omega) (by omega)
      simp only [offsetsOf, List.getElem_map] at this
      rw [he1, he2, ho] at this
      exact absurd rfl this

end Delta

namespace Delta

theorem cmpMono_asc (keys : List Nat) (b : Nat)
    (hs : List.Pairwise (fun a c => a < c) keys) :
    CmpMono (fun k => compare k b) keys := by
  intro i j hij hj
  rw [List.pairwise_iff_getElem] at hs
  have hle : keys.getD i 0 ≤ keys.getD j 0 := by
    rcases Nat.lt_or_ge i j with hlt | hge
    · rw [show keys.getD i 0 = keys[i] from List.getD_eq_getElem keys 0 (by omega),
        show keys.getD j 0 = keys[j] from List.getD_eq_getElem keys 0 hj]
      exact le_of_lt (hs i j (by omega) hj hlt)
    · have hii : i = j := by omega
      rw [hii]
  constructor
  · intro hcj
    rw [Nat.compare_eq_lt] at hcj ⊢
    omega
  · intro hci
    rw [Nat.compare_eq_gt] at hci ⊢
    omega

theorem cmpMono_desc (keys : List Nat) (b : Nat)
    (hs : List.Pairwise (fun a c => c < a) keys) :
    CmpMono (fun k => compare b k) keys := by
  intro i j hij hj
  rw [List.pairwise_iff_getElem] at hs
  have hle : keys.getD j 0 ≤ keys.getD i 0 := by
    rcases Nat.lt_or_ge i j with hlt | hge
    · rw [show keys.getD i 0 = keys[i] from List.getD_eq_getElem keys 0 (by omega),
        show keys.getD j 0 = keys[j] from List.getD_eq_getElem keys 0 hj]
      exact le_of_lt (hs i j (by omega) hj hlt)
    · have hii : i = j := by omega
      rw [hii]
  constructor
  · intro hcj
    rw [Nat.compare_eq_lt] at hcj ⊢
    omega
  · intro hci
    rw [Nat.compare_eq_gt] at hci ⊢
    omega

theorem keys_drop_getD (items : List (Item T)) (rl k : Nat)
    (hk : rl + k < items.length) :
    ((items.drop rl).map (fun it => it.offset)).getD k 0 =
      items[rl + k].offset := by
  rw [List.getD_eq_getElem?_getD, List.getElem?_map, List.getElem?_drop,
    List.getElem?_eq_getElem hk]
  rfl

theorem keys_take_getD (items : List (Item T)) (rl k : Nat)
    (hk1 : k < rl) (hk : k < items.length) :
    ((items.take rl).map (fun it => it.offset)).getD k 0 =
      items[k].offset := by
  rw [List.getD_eq_getElem?_getD, List.getElem?_map,
    List.getElem?_take_of_lt hk1, List.getElem?_eq_getElem hk]
  rfl

theorem lookupBase_some {rl : Nat} {items : List (Item T)} {b j : Nat}
    (hr : rl ≤ items.length) (h : lookupBase rl items b = some j) :
    ∃ hj : j < items.length, items[j].offset = b := by
  unfold lookupBase at h
  cases h1 : rustBinarySearch (fun k => compare k b)
      ((items.drop rl).map (fun it => it.offset)) with
  | some i =>
    rw [h1] at h
    have hij := Option.some.inj h
    obtain ⟨hlen, hcmp⟩ := rustBinarySearch_some h1
    rw [List.length_map, List.length_drop] at hlen
    rw [keys_drop_getD items rl i (by omega), Nat.compare_eq_eq] at hcmp
    subst hij
    exact ⟨by omega, hcmp⟩
  | none =>
    rw [h1] at h
    cases h2 : rustBinarySearch (fun k => compare b k)
        ((items.take rl).map (fun it => it.offset)) with
    | some i =>
      rw [h2] at h
      have hij := Option.some.inj h
      obtain ⟨hlen, hcmp⟩ := rustBinarySearch_some h2
      rw [List.length_map, List.length_take] at hlen
      have hil : i < items.length := by omega
      rw [keys_take_getD items rl i (by omega) hil, Nat.compare_eq_eq] at hcmp
      subst hij
      exact ⟨hil, hcmp.symm⟩
    | none =>
      rw [h2] at h
      exact Option.noConfusion h

theorem lookupBase_none {rl : Nat} {items : List (Item T)} {b : Nat}
    (hr : rl ≤ items.length)
    (hroots : List.Pairwise (fun a c => c < a)
      ((items.map (fun it => it.offset)).take rl))
    (hchildren : List.Pairwise (fun a c => a < c)
      ((items.map (fun it => it.offset)).drop rl))
    (h : lookupBase rl items b = none) :
    ∀ j, (hj : j < items.length) → items[j].offset ≠ b := by
  unfold lookupBase at h
  cases h1 : rustBinarySearch (fun k => compare k b)
      ((items.drop rl).map (fun it => it.offset)) with
  | some i =>
    rw [h1] at h
    exact Option.noConfusion h
  | none =>
    rw [h1] at h
    cases h2 : rustBinarySearch (fun k => compare b k)
        ((items.take rl).map (fun it => it.offset)) with
    | some i =>
      rw [h2] at h
      exact Option.noConfusion h
    | none =>
      intro j hj hb
      have hch : CmpMono (fun k => compare k b)
          ((items.drop rl).map (fun it => it.offset)) := by
        apply cmpMono_asc
        rw [List.map_drop]
        exact hchildren
      have hrt : CmpMono (fun k => compare b k)
          ((items.take rl).map (fun it => it.offset)) := by
        apply cmpMono_desc
        rw [List.map_take]
        exact hroots
      rcases Nat.lt_or_ge j rl with hjlt | hjge
      · have hnone := rustBinarySearch_none hrt h2 j
          (by rw [List.length_map, List.length_take]; omega)
        apply hnone
        rw [keys_take_getD items rl j hjlt hj, hb, Nat.compare_eq_eq]
      · have hnone := rustBinarySearch_none hch h1 (j - rl)
          (by rw [List.length_map, List.length_drop]; omega)
        apply hnone
        have hidx : rl + (j - rl) = j := by omega
        rw [keys_drop_getD items rl (j - rl) (by omega)]
        simp only [hidx]
        rw [hb, Nat.compare_eq_eq]

end Delta

namespace Delta

theorem setNext_offset (v : Nat) (it : Item T) :
    (setNext v it).offset = it.offset := rfl

theorem appendChild_posOf (c : Nat) (it : Item T) :
    posOf (appendChild c it) = posOf it := rfl

theorem offsetsOf_le {t : Tree T} (h : Inv t) :
    ∀ x ∈ offsetsOf t, x ≤ lastOffset t := by
  intro x hx
  rw [offsetsOf, List.mem_map] at hx
  obtain ⟨it, hit, he⟩ := hx
  exact he ▸ h.mem_le hit

theorem getElem_eq_of_getElem? {l : List α} {i : Nat} {x : α}
    (hi : i < l.length) (h : l[i]? = some x) : l[i] = x := by
  rw [List.getElem?_eq_getElem hi] at h
  exact Option.some.inj h

theorem getElem_map_field {β : Type} (g : Item T → β) {l1 l2 : List (Item T)}
    (h : l1.map g = l2.map g) (i : Nat) (hi1 : i < l1.length)
    (hi2 : i < l2.length) : g l1[i] = g l2[i] := by
  have h2 := congrArg (fun l => l[i]?) h
  simp only [List.getElem?_map, List.getElem?_eq_getElem hi1,
    List.getElem?_eq_getElem hi2, Option.map_some'] at h2
  exact Option.some.inj h2

theorem updateAt_self_getElem {l : List α} {i : Nat} (f : α → α)
    (hi : i < l.length) (hi2 : i < (updateAt l i f).length) :
    (updateAt l i f)[i] = f l[i] := by
  apply getElem_eq_of_getElem? hi2
  rw [getElem?_updateAt_self, List.getElem?_eq_getElem hi]
  rfl

theorem updateAt_ne_getElem {l : List α} {i j : Nat} (f : α → α)
    (hj : j < l.length) (hj2 : j < (updateAt l i f).length) (hne : j ≠ i) :
    (updateAt l i f)[j] = l[j] := by
  apply getElem_eq_of_getElem? hj2
  rw [getElem?_updateAt_ne _ _ _ _ hne, List.getElem?_eq_getElem hj]

theorem getElem_append_left_of_lt {l l2 : List α} {i : Nat}
    (hi : i < l.length) (hi2 : i < (l ++ l2).length) :
    (l ++ l2)[i] = l[i] := by
  apply getElem_eq_of_getElem? hi2
  rw [List.getElem?_append, if_pos hi, List.getElem?_eq_getElem hi]

theorem getElem_append_length {l : List α} {x : α} {i : Nat}
    (hi : i = l.length) (hi2 : i < (l ++ [x]).length) :
    (l ++ [x])[i] = x := by
  apply getElem_eq_of_getElem? hi2
  rw [List.getElem?_append_right (by omega)]
  subst hi
  simp

/-- `updateAt _ _ (setNext v)` keeps every offset. -/
theorem offsets_updateAt_setNext (l : List (Item T)) (i v : Nat) :
    (updateAt l i (setNext v)).map (fun it => it.offset) =
      l.map (fun it => it.offset) :=
  map_updateAt l i (setNext v) _ (fun _ => rfl)

/-- `updateAt _ _ (appendChild c)` keeps every offset and next-offset. -/
theorem posOf_updateAt_appendChild (l : List (Item T)) (i c : Nat) :
    (updateAt l i (appendChild c)).map posOf = l.map posOf :=
  map_updateAt l i (appendChild c) _ (fun _ => rfl)

theorem offsets_of_posOf {l1 l2 : List (Item T)}
    (h : l1.map posOf = l2.map posOf) :
    l1.map (fun it => it.offset) = l2.map (fun it => it.offset) := by
  have h1 : l1.map (fun it => it.offset) = (l1.map posOf).map Prod.fst := by
    rw [List.map_map]
    rfl
  have h2 : l2.map (fun it => it.offset) = (l2.map posOf).map Prod.fst := by
    rw [List.map_map]
    rfl
  rw [h1, h2, h]

end Delta

namespace Delta

theorem add_root_eq (t : Tree T) (offset : Nat) (data : T)
    (hsucc : t.items = [] ∨
      (t.last_index < t.items.length ∧ lastOffset t < offset)) :
    add_root t offset data =
      (none, addRootInner
        { t with items := updateAt t.items t.last_index (setNext offset) }
        offset data) := by
  rcases hsucc with hemp | ⟨hlt, hgt⟩
  · obtain ⟨items, roots, li, fut⟩ := t
    have hemp2 : items = [] := hemp
    subst hemp2
    rfl
  · unfold add_root
    rw [assert_incr_gt t offset hlt hgt]

theorem add_child_eq (t : Tree T) (b offset : Nat) (data : T)
    (hsucc : t.items = [] ∨
      (t.last_index < t.items.length ∧ lastOffset t < offset)) :
    add_child t b offset data =
      (none, addChildInner
        { t with items := updateAt t.items t.last_index (setNext offset) }
        b offset data) := by
  rcases hsucc with hemp | ⟨hlt, hgt⟩
  · obtain ⟨items, roots, li, fut⟩ := t
    have hemp2 : items = [] := hemp
    subst hemp2
    rfl
  · unfold add_child
    rw [assert_incr_gt t offset hlt hgt]

theorem addChildInner_found {t1 : Tree T} {b j : Nat} (offset : Nat)
    (data : T) (hL : lookupBase t1.roots t1.items b = some j) :
    addChildInner t1 b offset data =
      ⟨updateAt t1.items j
          (appendChild ((t1.items.drop t1.roots).length)) ++
          [⟨offset, 0, data, []⟩],
       t1.roots, t1.items.length, t1.future_child_offsets⟩ := by
  unfold addChildInner
  rw [hL]

theorem addChildInner_miss {t1 : Tree T} {b : Nat} (offset : Nat)
    (data : T) (hL : lookupBase t1.roots t1.items b = none) :
    addChildInner t1 b offset data =
      ⟨t1.items ++ [⟨offset, 0, data, []⟩],
       t1.roots, t1.items.length,
       t1.future_child_offsets ++
         [(b, (t1.items.drop t1.roots).length)]⟩ := by
  unfold addChildInner
  rw [hL]

end Delta

namespace Delta

theorem getElem?_append_singleton_length (l : List α) (x : α) :
    (l ++ [x])[l.length]? = some x := by
  rw [List.getElem?_append_right le_rfl]
  simp

theorem lastOffset_addRootInner (t1 : Tree T) (o : Nat) (d : T) :
    lastOffset (addRootInner t1 o d) = o := by
  simp [lastOffset, addRootInner]

/-- The tree holding exactly one root item. -/
theorem inv_cons_single (o : Nat) (d : T) :
    Inv (⟨[⟨o, 0, d, []⟩], 1, 0, []⟩ : Tree T) := by
  constructor
  · simp
  · intro _
    simp
  · simp [offsetsOf]
  · simp [offsetsOf]
  · simp [offsetsOf]
  · intro i hi hne0
    simp at hi hne0
    omega
  · intro i hi hne0
    simp at hi hne0
    omega
  · intro hf
    simp at hf

theorem add_root_inv {t : Tree T} (h : Inv t) (o : Nat) (d : T)
    (hsucc : t.items = [] ∨ lastOffset t < o) :
    (add_root t o d).1 = none ∧
    Inv (add_root t o d).2 ∧
    (add_root t o d).2.items ≠ [] ∧
    lastOffset (add_root t o d).2 = o ∧
    (∀ _hne : t.items ≠ [], ∃ it ∈ (add_root t o d).2.items,
      it.offset = lastOffset t ∧ it.next_offset = o) := by
  by_cases hemp : t.items = []
  · rw [add_root_eq t o d (Or.inl hemp)]
    obtain ⟨items, roots, li, fut⟩ := t
    have hemp2 : items = [] := hemp
    subst hemp2
    have h0 : roots = 0 := by
      have hr := h.roots_le
      simp at hr
      exact hr
    subst h0
    have hfut : fut = [] := by
      by_contra hf
      exact (h.pending_ne hf) rfl
    subst hfut
    exact ⟨rfl, inv_cons_single o d, by simp [addRootInner],
      lastOffset_addRootInner _ o d, fun hne => absurd rfl hne⟩
  · have hgt : lastOffset t < o := hsucc.resolve_left hemp
    have hlt : t.last_index < t.items.length := h.last_lt hemp
    rw [add_root_eq t o d (Or.inr ⟨hlt, hgt⟩)]
    have f1 : (updateAt t.items t.last_index (setNext o)).length =
        t.items.length := length_updateAt _ _ _
    have f2 : (updateAt t.items t.last_index (setNext o)).map
        (fun it => it.offset) = t.items.map (fun it => it.offset) :=
      offsets_updateAt_setNext t.items t.last_index o
    have f5 : ∀ x ∈ offsetsOf t, x < o := fun x hx =>
      lt_of_le_of_lt (offsetsOf_le h x hx) hgt
    have hro : offsetsOf (addRootInner
        { t with items := updateAt t.items t.last_index (setNext o) } o d) =
        o :: offsetsOf t := by
      simp only [offsetsOf, addRootInner, List.map_cons]
      rw [f2]
    have hself : (updateAt t.items t.last_index (setNext o))[t.last_index] =
        setNext o t.items[t.last_index] :=
      updateAt_self_getElem (setNext o) hlt (by omega)
    refine ⟨rfl, ?_, by simp [addRootInner], lastOffset_addRootInner _ o d, ?_⟩
    · constructor
      · show t.roots + 1 ≤
          (⟨o, 0, d, []⟩ :: updateAt t.items t.last_index (setNext o)).length
        have hr := h.roots_le
        simp only [List.length_cons, f1]
        omega
      · intro _
        show 0 <
          (⟨o, 0, d, []⟩ :: updateAt t.items t.last_index (setNext o)).length
        simp
      · show List.Pairwise _ ((offsetsOf _).take (t.roots + 1))
        rw [hro, List.take_succ_cons, List.pairwise_cons]
        constructor
        · intro x hx
          exact f5 x (List.mem_of_mem_take hx)
        · exact h.roots_sorted
      · show List.Pairwise _ ((offsetsOf _).drop (t.roots + 1))
        rw [hro, List.drop_succ_cons]
        exact h.children_sorted
      · show List.Pairwise _ (offsetsOf _)
        rw [hro, List.pairwise_cons]
        exact ⟨fun x hx => (f5 x hx).ne', h.off_distinct⟩
      · intro i hi hne0
        show _ < lastOffset _
        rw [lastOffset_addRootInner]
        cases i with
        | zero => exact absurd rfl hne0
        | succ k =>
          simp only [addRootInner, List.length_cons, f1] at hi
          have hk : k < t.items.length := by omega
          have hk1 : k < (updateAt t.items t.last_index (setNext o)).length := by
            omega
          show (⟨o, 0, d, []⟩ ::
            updateAt t.items t.last_index (setNext o))[k + 1].offset < o
          rw [List.getElem_cons_succ]
          have he : (updateAt t.items t.last_index
              (setNext o))[k].offset = t.items[k].offset :=
            getElem_map_field (fun it => it.offset) f2 k hk1 hk
          rw [he]
          exact lt_of_le_of_lt (h.all_le k hk) hgt
      · intro i hi hne0
        cases i with
        | zero => exact absurd rfl hne0
        | succ k =>
          simp only [addRootInner, List.length_cons, f1] at hi
          have hk : k < t.items.length := by omega
          have hk1 : k < (updateAt t.items t.last_index (setNext o)).length := by
            omega
          show (⟨o, 0, d, []⟩ ::
              updateAt t.items t.last_index (setNext o))[k + 1].offset <
            (⟨o, 0, d, []⟩ ::
              updateAt t.items t.last_index (setNext o))[k + 1].next_offset
          rw [List.getElem_cons_succ]
          by_cases hkli : k = t.last_index
          · subst hkli
            rw [hself]
            show t.items[t.last_index].offset < o
            exact lt_of_le_of_lt (h.all_le t.last_index hk) hgt
          · rw [updateAt_ne_getElem (setNext o) hk hk1 hkli]
            exact h.next_gt k hk hkli
      · intro hf
        simp [addRootInner]
    · intro _
      refine ⟨(updateAt t.items t.last_index (setNext o))[t.last_index], ?_, ?_, ?_⟩
      · show _ ∈ ⟨o, 0, d, []⟩ :: updateAt t.items t.last_index (setNext o)
        exact List.mem_cons_of_mem _ (List.getElem_mem (by omega))
      · rw [hself]
        show t.items[t.last_index].offset = lastOffset t
        exact (lastOffset_eq t hlt).symm
      · rw [hself]
        rfl

end Delta

namespace Delta

theorem posOf_fst (it : Item T) : (posOf it).1 = it.offset := rfl

theorem posOf_snd (it : Item T) : (posOf it).2 = it.next_offset := rfl

/-- Pushing a fresh item at the back of a mid-state whose offsets all lie
below the new offset keeps the invariant; the pending list is arbitrary
(`add_child` either keeps it or appends one pair). -/
theorem inv_push_back (t1 : Tree T) (items2 : List (Item T))
    (fut2 : List (Nat × Nat)) (o : Nat) (d : T)
    (hpos2 : items2.map posOf = t1.items.map posOf)
    (hr : t1.roots ≤ t1.items.length)
    (hrs : List.Pairwise (fun a c => c < a)
      ((t1.items.map (fun it => it.offset)).take t1.roots))
    (hcs : List.Pairwise (fun a c => a < c)
      ((t1.items.map (fun it => it.offset)).drop t1.roots))
    (hdist : List.Pairwise (fun a c => a ≠ c)
      (t1.items.map (fun it => it.offset)))
    (hmax : ∀ x ∈ t1.items.map (fun it => it.offset), x < o)
    (hnext : ∀ i, (hi : i < t1.items.length) →
      t1.items[i].offset < t1.items[i].next_offset) :
    Inv (⟨items2 ++ [(⟨o, 0, d, []⟩ : Item T)], t1.roots, t1.items.length, fut2⟩ :
        Tree T) ∧
    (⟨items2 ++ [(⟨o, 0, d, []⟩ : Item T)], t1.roots, t1.items.length, fut2⟩ :
        Tree T).items ≠ [] ∧
    lastOffset (⟨items2 ++ [(⟨o, 0, d, []⟩ : Item T)], t1.roots, t1.items.length,
      fut2⟩ : Tree T) = o ∧
    (∀ i, (hi : i < t1.items.length) →
      ∃ it ∈ items2 ++ [(⟨o, 0, d, []⟩ : Item T)],
        it.offset = t1.items[i].offset ∧
        it.next_offset = t1.items[i].next_offset) := by
  have hlen2 : items2.length = t1.items.length := by
    have := congrArg List.length hpos2
    simpa using this
  have hoff2 : items2.map (fun it => it.offset) =
      t1.items.map (fun it => it.offset) := offsets_of_posOf hpos2
  have hofr : (items2 ++ [(⟨o, 0, d, []⟩ : Item T)]).map
      (fun it => it.offset) =
      t1.items.map (fun it => it.offset) ++ [o] := by
    rw [List.map_append, hoff2]
    rfl
  have hlast : lastOffset (⟨items2 ++ [(⟨o, 0, d, []⟩ : Item T)], t1.roots,
      t1.items.length, fut2⟩ : Tree T) = o := by
    unfold lastOffset
    rw [show (⟨items2 ++ [(⟨o, 0, d, []⟩ : Item T)], t1.roots, t1.items.length, fut2⟩ :
        Tree T).items = items2 ++ [(⟨o, 0, d, []⟩ : Item T)] from rfl]
    rw [show (⟨items2 ++ [(⟨o, 0, d, []⟩ : Item T)], t1.roots, t1.items.length, fut2⟩ :
        Tree T).last_index = t1.items.length from rfl]
    rw [← hlen2, getElem?_append_singleton_length]
  have hgeti : ∀ i, i < t1.items.length →
      ∀ hia : i < (items2 ++ [(⟨o, 0, d, []⟩ : Item T)]).length,
      ∀ hib : i < items2.length,
      (items2 ++ [(⟨o, 0, d, []⟩ : Item T)])[i] = items2[i] := by
    intro i hi hia hib
    exact getElem_append_left_of_lt hib hia
  refine ⟨?_, by simp, hlast, ?_⟩
  · constructor
    · show t1.roots ≤ (items2 ++ [(⟨o, 0, d, []⟩ : Item T)]).length
      simp only [List.length_append, List.length_cons, hlen2]
      omega
    · intro _
      show t1.items.length < (items2 ++ [(⟨o, 0, d, []⟩ : Item T)]).length
      simp only [List.length_append, List.length_cons, hlen2]
      omega
    · show List.Pairwise _ ((offsetsOf _).take t1.roots)
      rw [show offsetsOf (⟨items2 ++ [(⟨o, 0, d, []⟩ : Item T)], t1.roots,
          t1.items.length, fut2⟩ : Tree T) =
        (items2 ++ [(⟨o, 0, d, []⟩ : Item T)]).map (fun it => it.offset) from rfl]
      rw [hofr, List.take_append_of_le_length (by simpa using hr)]
      exact hrs
    · show List.Pairwise _ ((offsetsOf _).drop t1.roots)
      rw [show offsetsOf (⟨items2 ++ [(⟨o, 0, d, []⟩ : Item T)], t1.roots,
          t1.items.length, fut2⟩ : Tree T) =
        (items2 ++ [(⟨o, 0, d, []⟩ : Item T)]).map (fun it => it.offset) from rfl]
      rw [hofr, List.drop_append_of_le_length (by simpa using hr)]
      rw [List.pairwise_append]
      refine ⟨hcs, by simp, ?_⟩
      intro a ha c hc
      rw [List.mem_singleton] at hc
      subst hc
      exact hmax a (List.mem_of_mem_drop ha)
    · show List.Pairwise _ (offsetsOf _)
      rw [show offsetsOf (⟨items2 ++ [(⟨o, 0, d, []⟩ : Item T)], t1.roots,
          t1.items.length, fut2⟩ : Tree T) =
        (items2 ++ [(⟨o, 0, d, []⟩ : Item T)]).map (fun it => it.offset) from rfl]
      rw [hofr, List.pairwise_append]
      refine ⟨hdist, by simp, ?_⟩
      intro a ha c hc
      rw [List.mem_singleton] at hc
      subst hc
      exact (hmax a ha).ne
    · intro i hi hne0
      rw [hlast]
      have hilt : i < t1.items.length := by
        have h2 : i < items2.length + 1 := by
          have h3 : i < (items2 ++ [(⟨o, 0, d, []⟩ : Item T)]).length := hi
          simpa using h3
        have hne : i ≠ t1.items.length := hne0
        omega
      show (items2 ++ [(⟨o, 0, d, []⟩ : Item T)])[i].offset < o
      rw [hgeti i hilt (by simp only [List.length_append]; omega)
        (by omega)]
      have : items2[i].offset = t1.items[i].offset :=
        getElem_map_field (fun it => it.offset) hoff2 i (by omega) hilt
      rw [this]
      exact hmax _ (List.mem_map_of_mem _ (List.getElem_mem hilt))
    · intro i hi hne0
      have hilt : i < t1.items.length := by
        have h2 : i < items2.length + 1 := by
          have h3 : i < (items2 ++ [(⟨o, 0, d, []⟩ : Item T)]).length := hi
          simpa using h3
        have hne : i ≠ t1.items.length := hne0
        omega
      show (items2 ++ [(⟨o, 0, d, []⟩ : Item T)])[i].offset <
        (items2 ++ [(⟨o, 0, d, []⟩ : Item T)])[i].next_offset
      rw [hgeti i hilt (by simp only [List.length_append]; omega)
        (by omega)]
      have hp : posOf items2[i] = posOf t1.items[i] :=
        getElem_map_field posOf hpos2 i (by omega) hilt
      have ho : items2[i].offset = t1.items[i].offset :=
        congrArg Prod.fst hp
      have hn : items2[i].next_offset = t1.items[i].next_offset :=
        congrArg Prod.snd hp
      rw [ho, hn]
      exact hnext i hilt
    · intro _
      show items2 ++ [(⟨o, 0, d, []⟩ : Item T)] ≠ []
      simp
  · intro i hi
    have hi2 : i < items2.length := by omega
    have hp : posOf items2[i] = posOf t1.items[i] :=
      getElem_map_field posOf hpos2 i hi2 hi
    exact ⟨items2[i], List.mem_append_left _ (List.getElem_mem hi2),
      congrArg Prod.fst hp, congrArg Prod.snd hp⟩

end Delta

namespace Delta

theorem addChildInner_inv (t1 : Tree T) (b o : Nat) (d : T)
    (hr : t1.roots ≤ t1.items.length)
    (hrs : List.Pairwise (fun a c => c < a)
      ((t1.items.map (fun it => it.offset)).take t1.roots))
    (hcs : List.Pairwise (fun a c => a < c)
      ((t1.items.map (fun it => it.offset)).drop t1.roots))
    (hdist : List.Pairwise (fun a c => a ≠ c)
      (t1.items.map (fun it => it.offset)))
    (hmax : ∀ x ∈ t1.items.map (fun it => it.offset), x < o)
    (hnext : ∀ i, (hi : i < t1.items.length) →
      t1.items[i].offset < t1.items[i].next_offset) :
    Inv (addChildInner t1 b o d) ∧
    (addChildInner t1 b o d).items ≠ [] ∧
    lastOffset (addChildInner t1 b o d) = o ∧
    (∀ i, (hi : i < t1.items.length) →
      ∃ it ∈ (addChildInner t1 b o d).items,
        it.offset = t1.items[i].offset ∧
        it.next_offset = t1.items[i].next_offset) := by
  cases hL : lookupBase t1.roots t1.items b with
  | some j =>
    rw [addChildInner_found o d hL]
    exact inv_push_back t1
      (updateAt t1.items j
        (appendChild ((t1.items.drop t1.roots).length)))
      t1.future_child_offsets o d
      (posOf_updateAt_appendChild _ _ _) hr hrs hcs hdist hmax hnext
  | none =>
    rw [addChildInner_miss o d hL]
    exact inv_push_back t1 t1.items
      (t1.future_child_offsets ++ [(b, (t1.items.drop t1.roots).length)])
      o d rfl hr hrs hcs hdist hmax hnext

theorem add_child_inv {t : Tree T} (h : Inv t) (b o : Nat) (d : T)
    (hsucc : t.items = [] ∨ lastOffset t < o) :
    (add_child t b o d).1 = none ∧
    Inv (add_child t b o d).2 ∧
    (add_child t b o d).2.items ≠ [] ∧
    lastOffset (add_child t b o d).2 = o ∧
    (∀ _hne : t.items ≠ [], ∃ it ∈ (add_child t b o d).2.items,
      it.offset = lastOffset t ∧ it.next_offset = o) := by
  by_cases hemp : t.items = []
  · rw [add_child_eq t b o d (Or.inl hemp)]
    obtain ⟨items, roots, li, fut⟩ := t
    have hemp2 : items = [] := hemp
    subst hemp2
    have h0 : roots = 0 := by
      have hr := h.roots_le
      simpa using hr
    subst h0
    have hfut : fut = [] := by
      by_contra hf
      exact (h.pending_ne hf) rfl
    subst hfut
    refine ⟨rfl, ?_, ?_, ?_, fun hne => absurd rfl hne⟩
    · show Inv (⟨[⟨o, 0, d, []⟩], 0, 0, [(b, 0)]⟩ : Tree T)
      constructor
      · simp
      · intro _
        simp
      · simp [offsetsOf]
      · simp [offsetsOf]
      · simp [offsetsOf]
      · intro i hi hne0
        simp at hi hne0
        omega
      · intro i hi hne0
        simp at hi hne0
        omega
      · intro _
        simp
    · show ([⟨o, 0, d, []⟩] : List (Item T)) ≠ []
      simp
    · show lastOffset (⟨[⟨o, 0, d, []⟩], 0, 0, [(b, 0)]⟩ : Tree T) = o
      simp [lastOffset]
  · have hgt : lastOffset t < o := hsucc.resolve_left hemp
    have hlt : t.last_index < t.items.length := h.last_lt hemp
    rw [add_child_eq t b o d (Or.inr ⟨hlt, hgt⟩)]
    have f1 : (updateAt t.items t.last_index (setNext o)).length =
        t.items.length := length_updateAt _ _ _
    have f2 : (updateAt t.items t.last_index (setNext o)).map
        (fun it => it.offset) = t.items.map (fun it => it.offset) :=
      offsets_updateAt_setNext t.items t.last_index o
    have hself : (updateAt t.items t.last_index (setNext o))[t.last_index] =
        setNext o t.items[t.last_index] :=
      updateAt_self_getElem (setNext o) hlt (by omega)
    have key := addChildInner_inv
      ({ t with items := updateAt t.items t.last_index (setNext o) })
      b o d
      (show t.roots ≤ (updateAt t.items t.last_index (setNext o)).length by
        rw [f1]
        exact h.roots_le)
      (by
        show List.Pairwise _
          (((updateAt t.items t.last_index (setNext o)).map
            (fun it => it.offset)).take t.roots)
        rw [f2]
        exact h.roots_sorted)
      (by
        show List.Pairwise _
          (((updateAt t.items t.last_index (setNext o)).map
            (fun it => it.offset)).drop t.roots)
        rw [f2]
        exact h.children_sorted)
      (by
        show List.Pairwise _
          ((updateAt t.items t.last_index (setNext o)).map
            (fun it => it.offset))
        rw [f2]
        exact h.off_distinct)
      (by
        show ∀ x ∈ (updateAt t.items t.last_index (setNext o)).map
          (fun it => it.offset), x < o
        rw [f2]
        intro x hx
        exact lt_of_le_of_lt (offsetsOf_le h x hx) hgt)
      (by
        show ∀ i, (hi : i <
            (updateAt t.items t.last_index (setNext o)).length) →
          (updateAt t.items t.last_index (setNext o))[i].offset <
            (updateAt t.items t.last_index (setNext o))[i].next_offset
        intro i hi
        have hil : i < t.items.length := by omega
        by_cases hkli : i = t.last_index
        · subst hkli
          rw [hself]
          show t.items[t.last_index].offset < o
          exact lt_of_le_of_lt (h.all_le t.last_index hil) hgt
        · rw [updateAt_ne_getElem (setNext o) hil (by omega) hkli]
          exact h.next_gt i hil hkli)
    obtain ⟨k1, k2, k3, k4⟩ := key
    refine ⟨rfl, k1, k2, k3, ?_⟩
    intro _
    have hlt1 : t.last_index <
        (updateAt t.items t.last_index (setNext o)).length := by omega
    obtain ⟨it, hmem, ho2, hn2⟩ := k4 t.last_index hlt1
    refine ⟨it, hmem, ?_, ?_⟩
    · rw [ho2]
      show (updateAt t.items t.last_index (setNext o))[t.last_index].offset =
        lastOffset t
      rw [hself]
      show t.items[t.last_index].offset = lastOffset t
      exact (lastOffset_eq t hlt).symm
    · rw [hn2]
      show (updateAt t.items t.last_index
        (setNext o))[t.last_index].next_offset = o
      rw [hself]
      rfl

end Delta

namespace Delta

theorem applyOp_succ {t : Tree T} (h : Inv t) (op : Op T)
    (hsucc : t.items = [] ∨ lastOffset t < opOffset op) :
    (applyOp t op).1 = none ∧ Inv (applyOp t op).2 ∧
    (applyOp t op).2.items ≠ [] ∧
    lastOffset (applyOp t op).2 = opOffset op ∧
    (∀ _hne : t.items ≠ [], ∃ it ∈ (applyOp t op).2.items,
      it.offset = lastOffset t ∧ it.next_offset = opOffset op) := by
  cases op with
  | root o d2 => exact add_root_inv h o d2 hsucc
  | child b o d2 => exact add_child_inv h b o d2 hsucc

theorem applyOp_fail {t : Tree T} (h : Inv t) (op : Op T)
    (hne : t.items ≠ []) (hle : opOffset op ≤ lastOffset t) :
    applyOp t op =
      (some (.InvariantIncreasingPackOffset (lastOffset t) (opOffset op)),
       t) := by
  have hlt := h.last_lt hne
  cases op with
  | root o d2 =>
    show add_root t o d2 = _
    unfold add_root
    rw [assert_incr_le t o hlt hle]
    rfl
  | child b o d2 =>
    show add_child t b o d2 = _
    unfold add_child
    rw [assert_incr_le t o hlt hle]
    rfl

theorem applyOp_fail_unchanged {t : Tree T} {op : Op T} {e : TreeError}
    (h : (applyOp t op).1 = some e) : (applyOp t op).2 = t := by
  cases op with
  | root o d2 =>
    rcases hA : assert_is_incrementing_and_update_next_offset t o
      with ⟨eq, t1⟩
    show (add_root t o d2).2 = t
    have h2 : (add_root t o d2).1 = some e := h
    unfold add_root at h2 ⊢
    rw [hA] at h2 ⊢
    cases eq with
    | none => exact Option.noConfusion h2
    | some e2 =>
      have h3 := assert_incr_fail_unchanged
        (show (assert_is_incrementing_and_update_next_offset t o).1 =
          some e2 by rw [hA])
      rw [hA] at h3
      exact h3
  | child b o d2 =>
    rcases hA : assert_is_incrementing_and_update_next_offset t o
      with ⟨eq, t1⟩
    show (add_child t b o d2).2 = t
    have h2 : (add_child t b o d2).1 = some e := h
    unfold add_child at h2 ⊢
    rw [hA] at h2 ⊢
    cases eq with
    | none => exact Option.noConfusion h2
    | some e2 =>
      have h3 := assert_incr_fail_unchanged
        (show (assert_is_incrementing_and_update_next_offset t o).1 =
          some e2 by rw [hA])
      rw [hA] at h3
      exact h3

theorem applyOp_none_succ {t : Tree T} (h : Inv t) {op : Op T}
    (hn : (applyOp t op).1 = none) :
    t.items = [] ∨ lastOffset t < opOffset op := by
  by_cases hemp : t.items = []
  · exact Or.inl hemp
  · by_cases hle : opOffset op ≤ lastOffset t
    · rw [applyOp_fail h op hemp hle] at hn
      exact Option.noConfusion hn
    · exact Or.inr (by omega)

theorem buildFrom_cons (t : Tree T) (op : Op T) (rest : List (Op T)) :
    buildFrom t (op :: rest) =
      match applyOp t op with
      | (none, t1) => buildFrom t1 rest
      | (some _, _) => none := by
  rw [buildFrom]

theorem buildFrom_append (t : Tree T) (l1 l2 : List (Op T)) :
    buildFrom t (l1 ++ l2) =
      (buildFrom t l1).bind (fun u => buildFrom u l2) := by
  induction l1 generalizing t with
  | nil => rfl
  | cons op rest ih =>
    rw [List.cons_append, buildFrom_cons t op (rest ++ l2),
      buildFrom_cons t op rest]
    rcases hA : applyOp t op with ⟨eq, t1⟩
    cases eq with
    | none => exact ih t1
    | some e => rfl

theorem buildFrom_single {t0 t : Tree T} {op : Op T}
    (h : buildFrom t0 [op] = some t) :
    (applyOp t0 op).1 = none ∧ (applyOp t0 op).2 = t := by
  unfold buildFrom at h
  rcases hA : applyOp t0 op with ⟨eq, t1⟩
  rw [hA] at h
  cases eq with
  | none =>
    have h2 : some t1 = some t := h
    exact ⟨rfl, Option.some.inj h2⟩
  | some e => exact Option.noConfusion h

theorem buildFrom_inv : ∀ (ops : List (Op T)) (t0 t : Tree T), Inv t0 →
    buildFrom t0 ops = some t → Inv t := by
  intro ops
  induction ops with
  | nil =>
    intro t0 t h0 h
    have h2 : some t0 = some t := h
    rw [← Option.some.inj h2]
    exact h0
  | cons op rest ih =>
    intro t0 t h0 h
    rcases hA : applyOp t0 op with ⟨eq, t1⟩
    rw [buildFrom_cons t0 op rest, hA] at h
    cases eq with
    | some e => exact Option.noConfusion h
    | none =>
      have hn : (applyOp t0 op).1 = none := by rw [hA]
      have key := applyOp_succ h0 op (applyOp_none_succ h0 hn)
      have inv1 : Inv t1 := by
        have := key.2.1
        rw [hA] at this
        exact this
      exact ih t1 t inv1 h

theorem build_inv {ops : List (Op T)} {t : Tree T}
    (h : build ops = some t) : Inv t :=
  buildFrom_inv ops _ t (inv_with_capacity ops.length) h

theorem build_snoc {ops : List (Op T)} {op : Op T} {t : Tree T}
    (h : build (ops ++ [op]) = some t) :
    ∃ t0, build ops = some t0 ∧ (applyOp t0 op).1 = none ∧
      (applyOp t0 op).2 = t := by
  unfold build at h
  rw [buildFrom_append] at h
  cases hB : buildFrom (with_capacity (ops ++ [op]).length : Tree T) ops with
  | none =>
    rw [hB] at h
    exact Option.noConfusion h
  | some t0 =>
    rw [hB] at h
    have h2 : buildFrom t0 [op] = some t := h
    obtain ⟨h3, h4⟩ := buildFrom_single h2
    exact ⟨t0, hB, h3, h4⟩

theorem build_last {ops : List (Op T)} {op : Op T} {t : Tree T}
    (h : build (ops ++ [op]) = some t) :
    Inv t ∧ t.items ≠ [] ∧ lastOffset t = opOffset op := by
  obtain ⟨t0, hb0, h1, h2⟩ := build_snoc h
  have inv0 : Inv t0 := build_inv hb0
  have key := applyOp_succ inv0 op (applyOp_none_succ inv0 h1)
  rw [h2] at key
  exact ⟨key.2.1, key.2.2.1, key.2.2.2.1⟩

end Delta

namespace Delta

theorem offsets_updateAt_appendChild (l : List (Item T)) (i c : Nat) :
    (updateAt l i (appendChild c)).map (fun it => it.offset) =
      l.map (fun it => it.offset) :=
  map_updateAt l i (appendChild c) _ (fun _ => rfl)

theorem resolveLoop_cons (rl : Nat) (items : List (Item T)) (po ci : Nat)
    (rest : List (Nat × Nat)) :
    resolveLoop rl items ((po, ci) :: rest) =
      match lookupBase rl items po with
      | some j => resolveLoop rl (updateAt items j (appendChild ci)) rest
      | none => (some (.OutOfPackRefDelta po), items) := by
  rw [resolveLoop]

theorem resolveLoop_posOf (rl : Nat) :
    ∀ (pending : List (Nat × Nat)) (items : List (Item T)),
      ((resolveLoop rl items pending).2).map posOf = items.map posOf := by
  intro pending
  induction pending with
  | nil => intro items; rfl
  | cons pr rest ih =>
    intro items
    obtain ⟨po, ci⟩ := pr
    rw [resolveLoop_cons]
    cases hL : lookupBase rl items po with
    | some j =>
      show ((resolveLoop rl (updateAt items j (appendChild ci))
        rest).2).map posOf = items.map posOf
      rw [ih (updateAt items j (appendChild ci)),
        posOf_updateAt_appendChild]
    | none => rfl

theorem resolveLoop_length (rl : Nat) (pending : List (Nat × Nat))
    (items : List (Item T)) :
    ((resolveLoop rl items pending).2).length = items.length := by
  have h := congrArg List.length (resolveLoop_posOf rl pending items)
  simpa using h

theorem resolveLoop_offsets (rl : Nat) (pending : List (Nat × Nat))
    (items : List (Item T)) :
    ((resolveLoop rl items pending).2).map (fun it => it.offset) =
      items.map (fun it => it.offset) :=
  offsets_of_posOf (resolveLoop_posOf rl pending items)

theorem resolveLoop_children_sub (rl : Nat) :
    ∀ (pending : List (Nat × Nat)) (items : List (Item T)) (i c : Nat)
      (hi : i < items.length)
      (hi2 : i < ((resolveLoop rl items pending).2).length),
      c ∈ items[i].children →
        c ∈ ((resolveLoop rl items pending).2)[i].children := by
  intro pending
  induction pending with
  | nil => intro items i c hi hi2 hc; exact hc
  | cons pr rest ih =>
    intro items i c hi hi2 hc
    obtain ⟨po, ci⟩ := pr
    cases hL : lookupBase rl items po with
    | some j =>
      have hstep : resolveLoop rl items ((po, ci) :: rest) =
          resolveLoop rl (updateAt items j (appendChild ci)) rest := by
        rw [resolveLoop_cons, hL]
      simp only [hstep] at hi2 ⊢
      apply ih (updateAt items j (appendChild ci)) i c
        (by rw [length_updateAt]; omega)
        (by rw [resolveLoop_length, length_updateAt]; omega)
      by_cases hij : i = j
      · subst hij
        rw [updateAt_self_getElem (appendChild ci) hi
          (by rw [length_updateAt]; omega)]
        exact List.mem_append_left _ hc
      · rw [updateAt_ne_getElem (appendChild ci) hi
          (by rw [length_updateAt]; omega) hij]
        exact hc
    | none =>
      have hstep : resolveLoop rl items ((po, ci) :: rest) =
          (some (.OutOfPackRefDelta po), items) := by
        rw [resolveLoop_cons, hL]
      simp only [hstep] at hi2 ⊢
      exact hc

theorem resolveLoop_err (rl : Nat) :
    ∀ (pending : List (Nat × Nat)) (items : List (Item T)),
      rl ≤ items.length →
      List.Pairwise (fun a c => c < a)
        ((items.map (fun it => it.offset)).take rl) →
      List.Pairwise (fun a c => a < c)
        ((items.map (fun it => it.offset)).drop rl) →
      ∀ {e : TraverseError} {items1 : List (Item T)},
        resolveLoop rl items pending = (some e, items1) →
        ∃ po ci, e = .OutOfPackRefDelta po ∧ (po, ci) ∈ pending ∧
          ∀ j, (hj : j < items.length) → items[j].offset ≠ po := by
  intro pending
  induction pending with
  | nil =>
    intro items hr hrs hcs e items1 h
    have h1 := congrArg Prod.fst h
    exact Option.noConfusion h1
  | cons pr rest ih =>
    intro items hr hrs hcs e items1 h
    obtain ⟨po, ci⟩ := pr
    rw [resolveLoop_cons] at h
    cases hL : lookupBase rl items po with
    | some j =>
      rw [hL] at h
      have hoff := offsets_updateAt_appendChild items j ci
      obtain ⟨po2, ci2, he, hmem, hdang⟩ := ih
        (updateAt items j (appendChild ci))
        (by rw [length_updateAt]; exact hr)
        (by rw [hoff]; exact hrs)
        (by rw [hoff]; exact hcs) h
      refine ⟨po2, ci2, he, List.mem_cons_of_mem _ hmem, ?_⟩
      intro k hk
      have hk2 : k < (updateAt items j (appendChild ci)).length := by
        rw [length_updateAt]
        exact hk
      have hd := hdang k hk2
      have heq : (updateAt items j (appendChild ci))[k].offset =
          items[k].offset :=
        getElem_map_field (fun it => it.offset) hoff k hk2 hk
      rw [heq] at hd
      exact hd
    | none =>
      rw [hL] at h
      have h1 := congrArg Prod.fst h
      have h2 : TraverseError.OutOfPackRefDelta po = e :=
        Option.some.inj h1
      exact ⟨po, ci, h2.symm, List.mem_cons_self _ _,
        lookupBase_none hr hrs hcs hL⟩

end Delta

namespace Delta

theorem resolveLoop_ok (rl : Nat) :
    ∀ (pending : List (Nat × Nat)) (items : List (Item T)),
      rl ≤ items.length →
      List.Pairwise (fun a c => c < a)
        ((items.map (fun it => it.offset)).take rl) →
      List.Pairwise (fun a c => a < c)
        ((items.map (fun it => it.offset)).drop rl) →
      ∀ {items1 : List (Item T)},
        resolveLoop rl items pending = (none, items1) →
        ∀ po ci, (po, ci) ∈ pending →
          ∃ j, ∃ hj : j < items1.length,
            items1[j].offset = po ∧ ci ∈ items1[j].children := by
  intro pending
  induction pending with
  | nil =>
    intro items hr hrs hcs items1 h po ci hmem
    exact absurd hmem (List.not_mem_nil _)
  | cons pr rest ih =>
    intro items hr hrs hcs items1 h po ci hmem
    obtain ⟨po0, ci0⟩ := pr
    rw [resolveLoop_cons] at h
    cases hL : lookupBase rl items po0 with
    | none =>
      rw [hL] at h
      have h1 := congrArg Prod.fst h
      exact Option.noConfusion h1
    | some j =>
      rw [hL] at h
      have h2 : resolveLoop rl (updateAt items j (appendChild ci0)) rest =
          (none, items1) := h
      have hoff := offsets_updateAt_appendChild items j ci0
      have hlenu : (updateAt items j (appendChild ci0)).length =
          items.length := length_updateAt _ _ _
      rcases List.mem_cons.mp hmem with hhead | htail
      · have hpo : po = po0 := congrArg Prod.fst hhead
        have hci : ci = ci0 := congrArg Prod.snd hhead
        subst hpo
        subst hci
        obtain ⟨hj, hoffj⟩ := lookupBase_some hr hL
        have hj1 : j < (updateAt items j (appendChild ci)).length := by
          omega
        have hcij : ci ∈ (updateAt items j (appendChild ci))[j].children := by
          rw [updateAt_self_getElem (appendChild ci) hj hj1]
          simp [appendChild]
        have hj2 : j < items1.length := by
          have h3 := resolveLoop_length rl rest
            (updateAt items j (appendChild ci))
          rw [h2] at h3
          simp at h3
          omega
        refine ⟨j, hj2, ?_, ?_⟩
        · have hofr := resolveLoop_offsets rl rest
            (updateAt items j (appendChild ci))
          rw [h2] at hofr
          have hofr2 : items1.map (fun it => it.offset) =
              (updateAt items j (appendChild ci)).map
                (fun it => it.offset) := by
            simpa using hofr
          have : items1[j].offset =
              (updateAt items j (appendChild ci))[j].offset :=
            getElem_map_field (fun it => it.offset) hofr2 j hj2 hj1
          rw [this, updateAt_self_getElem (appendChild ci) hj hj1]
          exact hoffj
        · have hsub := resolveLoop_children_sub rl rest
            (updateAt items j (appendChild ci)) j ci hj1
            (by rw [resolveLoop_length]; omega) hcij
          simp only [h2] at hsub
          exact hsub
      · have hres := ih (updateAt items j (appendChild ci0))
          (by omega)
          (by rw [hoff]; exact hrs)
          (by rw [hoff]; exact hcs) h2 po ci htail
        exact hres

theorem resolveLoop_dangling_err (rl : Nat) :
    ∀ (pending : List (Nat × Nat)) (items : List (Item T)),
      rl ≤ items.length →
      ∀ po ci, (po, ci) ∈ pending →
        (∀ j, (hj : j < items.length) → items[j].offset ≠ po) →
        (resolveLoop rl items pending).1 ≠ none := by
  intro pending
  induction pending with
  | nil =>
    intro items hr po ci hmem hdang
    exact absurd hmem (List.not_mem_nil _)
  | cons pr rest ih =>
    intro items hr po ci hmem hdang
    obtain ⟨po0, ci0⟩ := pr
    rw [resolveLoop_cons]
    cases hL : lookupBase rl items po0 with
    | none =>
      intro hcontra
      exact Option.noConfusion hcontra
    | some j =>
      show (resolveLoop rl (updateAt items j (appendChild ci0)) rest).1 ≠
        none
      rcases List.mem_cons.mp hmem with hhead | htail
      · have hpo : po = po0 := congrArg Prod.fst hhead
        subst hpo
        obtain ⟨hj, hoffj⟩ := lookupBase_some hr hL
        exact absurd hoffj (hdang j hj)
      · apply ih (updateAt items j (appendChild ci0))
          (by rw [length_updateAt]; omega) po ci htail
        intro k hk
        have hk0 : k < items.length := by
          rw [length_updateAt] at hk
          exact hk
        have heq : (updateAt items j (appendChild ci0))[k].offset =
            items[k].offset :=
          getElem_map_field (fun it => it.offset)
            (offsets_updateAt_appendChild items j ci0) k hk hk0
        rw [heq]
        exact hdang k hk0

theorem seal_eq (t : Tree T) (pe : Nat) (hne : t.items ≠ []) :
    sealTree t pe =
      match resolveLoop t.roots t.items t.future_child_offsets with
      | (some e, items1) =>
        (some e, { t with items := items1, future_child_offsets := [] })
      | (none, items1) =>
        (none, { t with
                   items := updateAt items1 t.last_index (setNext pe),
                   future_child_offsets := [] }) := by
  unfold sealTree set_pack_entries_end_and_resolve_ref_offsets
  rw [if_neg (isEmpty_false_of_ne hne)]
  by_cases hf : t.future_child_offsets.isEmpty = true
  · have hfe : t.future_child_offsets = [] := List.isEmpty_iff.mp hf
    rw [if_pos hf]
    show (none, (⟨updateAt t.items t.last_index (setNext pe), t.roots,
        t.last_index, t.future_child_offsets⟩ : Tree T)) =
      match resolveLoop t.roots t.items t.future_child_offsets with
      | (some e, items1) =>
        (some e, { t with items := items1, future_child_offsets := [] })
      | (none, items1) =>
        (none, { t with
                   items := updateAt items1 t.last_index (setNext pe),
                   future_child_offsets := [] })
    rw [hfe]
    rfl
  · rw [if_neg hf]
    rcases hR : resolveLoop t.roots t.items t.future_child_offsets
      with ⟨eq, items1⟩
    cases eq with
    | some e => rfl
    | none => rfl

end Delta

namespace Delta

theorem offset_inj_of_distinct {l : List (Item T)}
    (hdist : List.Pairwise (fun a c => a ≠ c)
      (l.map (fun it => it.offset)))
    {it1 it2 : Item T} (h1 : it1 ∈ l) (h2 : it2 ∈ l)
    (ho : it1.offset = it2.offset) : it1 = it2 := by
  obtain ⟨i1, hi1, he1⟩ := List.getElem_of_mem h1
  obtain ⟨i2, hi2, he2⟩ := List.getElem_of_mem h2
  by_cases hii : i1 = i2
  · subst hii
    rw [← he1, ← he2]
  · rw [List.pairwise_iff_getElem] at hdist
    rcases Nat.lt_or_ge i1 i2 with hlt | hge
    · have hd := hdist i1 i2 (by simpa using hi1) (by simpa using hi2) hlt
      simp only [List.getElem_map] at hd
      rw [he1, he2, ho] at hd
      exact absurd rfl hd
    · have hd := hdist i2 i1 (by simpa using hi2) (by simpa using hi1)
        (by omega)
      simp only [List.getElem_map] at hd
      rw [he1, he2, ho] at hd
      exact absurd rfl hd

/-- C9: the very first insertion into a tree with no items succeeds for
every offset value (including 0; the strict-increase check only applies
when an item is present), and sealing an item-less tree succeeds for
every `pack_entries_end`, resolving nothing and writing no `next_offset`
(the tree is returned unchanged). -/
theorem C9_empty_tree_ops (t : Tree Unit) (ht : t.items = [])
    (op : Op Unit) (pe : Nat) :
    (applyOp t op).1 = none ∧ sealTree t pe = (none, t) := by
  constructor
  · obtain ⟨items, roots, li, fut⟩ := t
    have h2 : items = [] := ht
    subst h2
    cases op with
    | root o d => rfl
    | child b o d => rfl
  · unfold sealTree set_pack_entries_end_and_resolve_ref_offsets
    rw [if_pos (by rw [ht]; rfl)]

theorem C9_witness :
    ((with_capacity 0 : Tree Unit).items = [] ∧ (0:Nat) = 0) ∧
    ((applyOp (with_capacity 0 : Tree Unit) (Op.root 0 ())).1 = none ∧
      sealTree (with_capacity 0 : Tree Unit) 7 =
        (none, (with_capacity 0 : Tree Unit))) :=
  ⟨⟨rfl, rfl⟩, C9_empty_tree_ops (with_capacity 0) rfl (Op.root 0 ()) 7⟩

/-- C10: whenever `add_root` or `add_child` returns the
increasing-offset violation, the tree is completely unchanged: no item
inserted, no `next_offset` or children list modified, and the root
count, last-index marker and pending list keep their prior values. -/
theorem C10_failed_insertion_atomic (t : Tree Unit) (op : Op Unit)
    (e : TreeError) (h : (applyOp t op).1 = some e) :
    (applyOp t op).2 = t :=
  applyOp_fail_unchanged h

theorem C10_witness :
    ((applyOp (⟨[⟨5, 0, (), []⟩], 1, 0, []⟩ : Tree Unit)
        (Op.root 3 ())).1 =
      some (.InvariantIncreasingPackOffset 5 3)) ∧
    (applyOp (⟨[⟨5, 0, (), []⟩], 1, 0, []⟩ : Tree Unit)
        (Op.root 3 ())).2 =
      (⟨[⟨5, 0, (), []⟩], 1, 0, []⟩ : Tree Unit) :=
  ⟨by decide, C10_failed_insertion_atomic _ (Op.root 3 ())
    (.InvariantIncreasingPackOffset 5 3) (by decide)⟩

/-- C2: on a non-empty tree, inserting an offset less than or equal to
the most recently inserted item's offset fails with exactly
`IncreasingOffsetViolation{ last = prior offset, current = rejected }`
and a strictly greater offset succeeds and writes the new offset into
the prior item's `next_offset`. -/
theorem C2_incrementing_offsets (ops : List (Op Unit))
    (op1 op2 : Op Unit) (t : Tree Unit)
    (hb : build (ops ++ [op1]) = some t) :
    (opOffset op2 ≤ opOffset op1 →
      applyOp t op2 =
        (some (.InvariantIncreasingPackOffset (opOffset op1)
          (opOffset op2)), t)) ∧
    (opOffset op1 < opOffset op2 →
      (applyOp t op2).1 = none ∧
      ∃ it ∈ (applyOp t op2).2.items,
        it.offset = opOffset op1 ∧ it.next_offset = opOffset op2) := by
  obtain ⟨inv, hne, hlast⟩ := build_last hb
  constructor
  · intro hle
    rw [← hlast] at hle ⊢
    exact applyOp_fail inv op2 hne hle
  · intro hgt
    have key := applyOp_succ inv op2 (Or.inr (by omega))
    refine ⟨key.1, ?_⟩
    obtain ⟨it, hmem, ho, hn⟩ := key.2.2.2.2 hne
    exact ⟨it, hmem, by rw [ho, hlast], hn⟩

theorem C2_witness :
    (build ([] ++ [Op.root 5 ()]) =
      some (⟨[⟨5, 0, (), []⟩], 1, 0, []⟩ : Tree Unit)) ∧
    ((opOffset (Op.root 3 ()) ≤ opOffset (Op.root 5 ()) →
      applyOp (⟨[⟨5, 0, (), []⟩], 1, 0, []⟩ : Tree Unit) (Op.root 3 ()) =
        (some (.InvariantIncreasingPackOffset (opOffset (Op.root 5 ()))
          (opOffset (Op.root 3 ()))),
         (⟨[⟨5, 0, (), []⟩], 1, 0, []⟩ : Tree Unit))) ∧
     (opOffset (Op.root 5 ()) < opOffset (Op.root 3 ()) →
      (applyOp (⟨[⟨5, 0, (), []⟩], 1, 0, []⟩ : Tree Unit)
        (Op.root 3 ())).1 = none ∧
      ∃ it ∈ (applyOp (⟨[⟨5, 0, (), []⟩], 1, 0, []⟩ : Tree Unit)
          (Op.root 3 ())).2.items,
        it.offset = opOffset (Op.root 5 ()) ∧
        it.next_offset = opOffset (Op.root 3 ()))) :=
  ⟨by decide, C2_incrementing_offsets [] (Op.root 5 ()) (Op.root 3 ())
    (⟨[⟨5, 0, (), []⟩], 1, 0, []⟩ : Tree Unit) (by decide)⟩

/-- C8 counterexample: after `add_root(1)` then `add_root(2)` the roots
region of the backing storage, read front to back, is `[2, 1]` — not
sorted by ascending offset as the claim states. -/
theorem C8_counterexample :
    build [Op.root 1 (), Op.root 2 ()] =
      some (⟨[⟨2, 0, (), []⟩, ⟨1, 2, (), []⟩], 2, 0, []⟩ : Tree Unit) ∧
    ((⟨[⟨2, 0, (), []⟩, ⟨1, 2, (), []⟩], 2, 0, []⟩ : Tree Unit).items.take
      (⟨[⟨2, 0, (), []⟩, ⟨1, 2, (), []⟩], 2, 0, []⟩ : Tree Unit).roots).map
        (fun it => it.offset) = [2, 1] ∧
    ¬ List.Pairwise (fun a c : Nat => a ≤ c)
      (((⟨[⟨2, 0, (), []⟩, ⟨1, 2, (), []⟩], 2, 0, []⟩ :
        Tree Unit).items.take
        (⟨[⟨2, 0, (), []⟩, ⟨1, 2, (), []⟩], 2, 0, []⟩ :
          Tree Unit).roots).map (fun it => it.offset)) := by
  refine ⟨by decide, by decide, ?_⟩
  intro hp
  rw [show ((⟨[⟨2, 0, (), []⟩, ⟨1, 2, (), []⟩], 2, 0, []⟩ :
      Tree Unit).items.take
      (⟨[⟨2, 0, (), []⟩, ⟨1, 2, (), []⟩], 2, 0, []⟩ :
        Tree Unit).roots).map (fun it => it.offset) = [2, 1]
    from by decide] at hp
  have := List.pairwise_cons.mp hp
  have h2 := this.1 1 (by simp)
  omega

/-- C8 amended: after every successful build sequence the roots region
(front to back) is sorted by strictly DESCENDING offset, and the
children region by strictly ascending offset. -/
theorem C8_amended_regions_sorted (ops : List (Op Unit)) (t : Tree Unit)
    (hb : build ops = some t) :
    List.Pairwise (fun a c => c < a)
      ((t.items.take t.roots).map (fun it => it.offset)) ∧
    List.Pairwise (fun a c => a < c)
      ((t.items.drop t.roots).map (fun it => it.offset)) := by
  have inv := build_inv hb
  constructor
  · rw [List.map_take]
    exact inv.roots_sorted
  · rw [List.map_drop]
    exact inv.children_sorted

theorem C8_witness :
    (build [Op.root 1 (), Op.root 2 ()] =
      some (⟨[⟨2, 0, (), []⟩, ⟨1, 2, (), []⟩], 2, 0, []⟩ : Tree Unit)) ∧
    (List.Pairwise (fun a c => c < a)
      (((⟨[⟨2, 0, (), []⟩, ⟨1, 2, (), []⟩], 2, 0, []⟩ :
        Tree Unit).items.take 2).map (fun it => it.offset)) ∧
     List.Pairwise (fun a c => a < c)
      (((⟨[⟨2, 0, (), []⟩, ⟨1, 2, (), []⟩], 2, 0, []⟩ :
        Tree Unit).items.drop 2).map (fun it => it.offset))) :=
  ⟨by decide, C8_amended_regions_sorted [Op.root 1 (), Op.root 2 ()]
    (⟨[⟨2, 0, (), []⟩, ⟨1, 2, (), []⟩], 2, 0, []⟩ : Tree Unit)
    (by decide)⟩

end Delta

namespace Delta

/-- C7 counterexample: on a tree whose pending list holds a dangling
base offset, `seal(10)` fails with `DanglingBaseOffset{5}` but — contrary
to the claim — it empties the pending list, and a second `seal(10)`
SUCCEEDS instead of failing with the same error. -/
theorem C7_counterexample :
    build [Op.root 1 (), Op.child 5 2 ()] =
      some (⟨[⟨1, 2, (), []⟩, ⟨2, 0, (), []⟩], 1, 1, [(5, 0)]⟩ :
        Tree Unit) ∧
    (sealTree (⟨[⟨1, 2, (), []⟩, ⟨2, 0, (), []⟩], 1, 1, [(5, 0)]⟩ :
      Tree Unit) 10).1 = some (.OutOfPackRefDelta 5) ∧
    (sealTree (⟨[⟨1, 2, (), []⟩, ⟨2, 0, (), []⟩], 1, 1, [(5, 0)]⟩ :
      Tree Unit) 10).2.future_child_offsets ≠ [(5, 0)] ∧
    (sealTree (sealTree (⟨[⟨1, 2, (), []⟩, ⟨2, 0, (), []⟩], 1, 1,
      [(5, 0)]⟩ : Tree Unit) 10).2 10).1 = none := by
  decide

/-- C7 amended: if seal fails with `DanglingBaseOffset`, the pending
list is emptied (pairs resolved before the failure keep their appended
children) while every item's offset and `next_offset` are unchanged, and
invoking seal again with the same argument then SUCCEEDS. -/
theorem C7_amended_seal_failure (t : Tree Unit) (pe : Nat)
    (e : TraverseError) (hs : (sealTree t pe).1 = some e) :
    (sealTree t pe).2.future_child_offsets = [] ∧
    ((sealTree t pe).2).items.map posOf = t.items.map posOf ∧
    (sealTree (sealTree t pe).2 pe).1 = none := by
  by_cases hemp : t.items = []
  · have hseal : sealTree t pe = (none, t) := by
      unfold sealTree set_pack_entries_end_and_resolve_ref_offsets
      rw [if_pos (by rw [hemp]; rfl)]
    rw [hseal] at hs
    exact Option.noConfusion hs
  · have hseal := seal_eq t pe hemp
    rcases hR : resolveLoop t.roots t.items t.future_child_offsets
      with ⟨eq, items1⟩
    rw [hR] at hseal
    cases eq with
    | none =>
      have h2 : sealTree t pe =
          (none, { t with
            items := updateAt items1 t.last_index (setNext pe),
            future_child_offsets := [] }) := hseal
      rw [h2] at hs
      exact Option.noConfusion hs
    | some e2 =>
      have h2 : sealTree t pe =
          (some e2,
           { t with items := items1, future_child_offsets := [] }) :=
        hseal
      rw [h2]
      have hpos : items1.map posOf = t.items.map posOf := by
        have h3 := resolveLoop_posOf t.roots t.future_child_offsets t.items
        rw [hR] at h3
        exact h3
      refine ⟨rfl, hpos, ?_⟩
      have hlen1 : items1.length = t.items.length := by
        have h4 := congrArg List.length hpos
        simpa using h4
      have hne2 : ({ t with items := items1, future_child_offsets := ([] : List (Nat × Nat)) } : Tree Unit).items ≠ [] := by
        show items1 ≠ []
        intro hnil
        rw [hnil] at hlen1
        simp at hlen1
        exact hemp (List.eq_nil_of_length_eq_zero hlen1.symm)
      have h5 := seal_eq ({ t with items := items1, future_child_offsets := [] }) pe hne2
      rw [h5]
      rfl

theorem C7_witness :
    ((sealTree (⟨[⟨1, 2, (), []⟩, ⟨2, 0, (), []⟩], 1, 1, [(5, 0)]⟩ :
      Tree Unit) 10).1 = some (.OutOfPackRefDelta 5)) ∧
    ((sealTree (⟨[⟨1, 2, (), []⟩, ⟨2, 0, (), []⟩], 1, 1, [(5, 0)]⟩ :
        Tree Unit) 10).2.future_child_offsets = [] ∧
     ((sealTree (⟨[⟨1, 2, (), []⟩, ⟨2, 0, (), []⟩], 1, 1, [(5, 0)]⟩ :
        Tree Unit) 10).2).items.map posOf =
        (⟨[⟨1, 2, (), []⟩, ⟨2, 0, (), []⟩], 1, 1, [(5, 0)]⟩ :
          Tree Unit).items.map posOf ∧
     (sealTree (sealTree (⟨[⟨1, 2, (), []⟩, ⟨2, 0, (), []⟩], 1, 1,
        [(5, 0)]⟩ : Tree Unit) 10).2 10).1 = none) :=
  ⟨by decide, C7_amended_seal_failure
    (⟨[⟨1, 2, (), []⟩, ⟨2, 0, (), []⟩], 1, 1, [(5, 0)]⟩ : Tree Unit) 10
    (.OutOfPackRefDelta 5) (by decide)⟩

/-- C3 counterexample: `seal` accepts a `pack_entries_end` that is not
beyond the last item's offset: after building a root at offset 5,
`seal(3)` SUCCEEDS and stores `next_offset = 3 < 5`, falsifying
"after a successful seal every item satisfies
`next_offset > offset`" for arbitrary `pack_entries_end`. -/
theorem C3_counterexample :
    build [Op.root 5 ()] =
      some (⟨[⟨5, 0, (), []⟩], 1, 0, []⟩ : Tree Unit) ∧
    sealTree (⟨[⟨5, 0, (), []⟩], 1, 0, []⟩ : Tree Unit) 3 =
      (none, (⟨[⟨5, 3, (), []⟩], 1, 0, []⟩ : Tree Unit)) ∧
    ¬ (∀ it ∈ (⟨[⟨5, 3, (), []⟩], 1, 0, []⟩ : Tree Unit).items,
        it.offset < it.next_offset) := by
  decide

/-- C3 amended: for every built tree and every `pack_entries_end`
GREATER THAN the most recently inserted item's offset, after a
successful seal every stored item satisfies
`next_offset > offset`, and the most recently inserted item's
`next_offset` equals `pack_entries_end`. -/
theorem C3_amended_next_offsets (ops : List (Op Unit)) (t t1 : Tree Unit)
    (pe : Nat) (hb : build ops = some t) (hpe : lastOffset t < pe)
    (hs : sealTree t pe = (none, t1)) :
    (∀ it ∈ t1.items, it.offset < it.next_offset) ∧
    (t.items ≠ [] → ∃ it, t1.items[t1.last_index]? = some it ∧
      it.next_offset = pe ∧ it.offset = lastOffset t) := by
  have inv := build_inv hb
  by_cases hemp : t.items = []
  · have hseal : sealTree t pe = (none, t) := by
      unfold sealTree set_pack_entries_end_and_resolve_ref_offsets
      rw [if_pos (by rw [hemp]; rfl)]
    rw [hseal] at hs
    have ht1 : t = t1 := congrArg Prod.snd hs
    subst ht1
    refine ⟨?_, fun hne => absurd hemp hne⟩
    rw [hemp]
    intro it hmem
    exact absurd hmem (List.not_mem_nil _)
  · have hlt := inv.last_lt hemp
    have hseal := seal_eq t pe hemp
    rcases hR : resolveLoop t.roots t.items t.future_child_offsets
      with ⟨eq, items1⟩
    rw [hR] at hseal
    cases eq with
    | some e2 =>
      have h2 : sealTree t pe =
          (some e2,
           { t with items := items1, future_child_offsets := [] }) :=
        hseal
      rw [h2] at hs
      have h3 := congrArg Prod.fst hs
      exact Option.noConfusion h3
    | none =>
      have h2 : sealTree t pe =
          (none, { t with
            items := updateAt items1 t.last_index (setNext pe),
            future_child_offsets := [] }) := hseal
      rw [h2] at hs
      have ht1 : ({ t with
          items := updateAt items1 t.last_index (setNext pe),
          future_child_offsets := ([] : List (Nat × Nat)) } :
          Tree Unit) = t1 := congrArg Prod.snd hs
      have hpos : items1.map posOf = t.items.map posOf := by
        have h3 := resolveLoop_posOf t.roots t.future_child_offsets t.items
        rw [hR] at h3
        exact h3
      have hlen1 : items1.length = t.items.length := by
        have h4 := congrArg List.length hpos
        simpa using h4
      have hli1 : t.last_index < items1.length := by omega
      rw [← ht1]
      constructor
      · show ∀ it ∈ updateAt items1 t.last_index (setNext pe),
          it.offset < it.next_offset
        intro it hmem
        obtain ⟨i, hi, he⟩ := List.getElem_of_mem hmem
        have hi1 : i < items1.length := by
          rw [length_updateAt] at hi
          exact hi
        have hit : i < t.items.length := by omega
        by_cases hil : i = t.last_index
        · subst hil
          rw [updateAt_self_getElem (setNext pe) hi1 hi] at he
          rw [← he]
          show items1[t.last_index].offset < pe
          have ho2 : items1[t.last_index].offset =
              t.items[t.last_index].offset :=
            congrArg Prod.fst
              (getElem_map_field posOf hpos t.last_index hi1 hit)
          rw [ho2]
          rw [show t.items[t.last_index].offset = lastOffset t from
            (lastOffset_eq t hlt).symm]
          exact hpe
        · rw [updateAt_ne_getElem (setNext pe) hi1 hi hil] at he
          rw [← he]
          have hp2 := getElem_map_field posOf hpos i hi1 hit
          have ho2 : items1[i].offset = t.items[i].offset :=
            congrArg Prod.fst hp2
          have hn2 : items1[i].next_offset = t.items[i].next_offset :=
            congrArg Prod.snd hp2
          show items1[i].offset < items1[i].next_offset
          rw [ho2, hn2]
          exact inv.next_gt i hit hil
      · intro _
        show ∃ it,
          (updateAt items1 t.last_index (setNext pe))[t.last_index]? =
            some it ∧ it.next_offset = pe ∧ it.offset = lastOffset t
        refine ⟨setNext pe items1[t.last_index], ?_, rfl, ?_⟩
        · rw [getElem?_updateAt_self,
            List.getElem?_eq_getElem hli1]
          rfl
        · show items1[t.last_index].offset = lastOffset t
          have ho2 : items1[t.last_index].offset =
              t.items[t.last_index].offset :=
            congrArg Prod.fst
              (getElem_map_field posOf hpos t.last_index hli1 hlt)
          rw [ho2]
          exact (lastOffset_eq t hlt).symm

theorem C3_witness :
    (build [Op.root 5 ()] =
      some (⟨[⟨5, 0, (), []⟩], 1, 0, []⟩ : Tree Unit) ∧
     lastOffset (⟨[⟨5, 0, (), []⟩], 1, 0, []⟩ : Tree Unit) < 9 ∧
     sealTree (⟨[⟨5, 0, (), []⟩], 1, 0, []⟩ : Tree Unit) 9 =
       (none, (⟨[⟨5, 9, (), []⟩], 1, 0, []⟩ : Tree Unit))) ∧
    ((∀ it ∈ (⟨[⟨5, 9, (), []⟩], 1, 0, []⟩ : Tree Unit).items,
        it.offset < it.next_offset) ∧
     ((⟨[⟨5, 0, (), []⟩], 1, 0, []⟩ : Tree Unit).items ≠ [] →
      ∃ it, (⟨[⟨5, 9, (), []⟩], 1, 0, []⟩ :
          Tree Unit).items[(⟨[⟨5, 9, (), []⟩], 1, 0, []⟩ :
          Tree Unit).last_index]? = some it ∧
        it.next_offset = 9 ∧
        it.offset = lastOffset (⟨[⟨5, 0, (), []⟩], 1, 0, []⟩ :
          Tree Unit))) :=
  ⟨⟨by decide, by decide, by decide⟩,
   C3_amended_next_offsets [Op.root 5 ()]
     (⟨[⟨5, 0, (), []⟩], 1, 0, []⟩ : Tree Unit)
     (⟨[⟨5, 9, (), []⟩], 1, 0, []⟩ : Tree Unit) 9
     (by decide) (by decide) (by decide)⟩

end Delta

namespace Delta

/-- C1: seal resolves forward references exactly when possible.  For
every built tree: if some pending `(base_offset, child_index)` pair's
base offset equals no stored item's offset, `seal` fails with
`DanglingBaseOffset` carrying such a dangling base offset; if every
pending base offset matches some stored item, `seal` succeeds and, for
every pending pair, the unique stored item whose offset equals the base
offset has the child index appended to its `children` list. -/
theorem C1_seal_resolves_iff (ops : List (Op Unit)) (t : Tree Unit)
    (pe : Nat) (hb : build ops = some t) :
    ((∃ pr ∈ t.future_child_offsets,
        ∀ it ∈ t.items, it.offset ≠ pr.1) →
      ∃ b2 : Nat, (sealTree t pe).1 = some (.OutOfPackRefDelta b2) ∧
        (∃ ci, (b2, ci) ∈ t.future_child_offsets) ∧
        ∀ it ∈ t.items, it.offset ≠ b2) ∧
    ((∀ pr ∈ t.future_child_offsets,
        ∃ it ∈ t.items, it.offset = pr.1) →
      (sealTree t pe).1 = none ∧
      ∀ pr ∈ t.future_child_offsets,
        ∃ it, (it ∈ (sealTree t pe).2.items ∧ it.offset = pr.1 ∧
            pr.2 ∈ it.children) ∧
          ∀ it2 ∈ (sealTree t pe).2.items,
            it2.offset = pr.1 → it2 = it) := by
  have inv := build_inv hb
  by_cases hemp : t.items = []
  · have hfut : t.future_child_offsets = [] := by
      by_contra hf
      exact (inv.pending_ne hf) hemp
    constructor
    · rintro ⟨pr, hpr, _⟩
      rw [hfut] at hpr
      exact absurd hpr (List.not_mem_nil _)
    · intro _
      have hseal : sealTree t pe = (none, t) := by
        unfold sealTree set_pack_entries_end_and_resolve_ref_offsets
        rw [if_pos (by rw [hemp]; rfl)]
      rw [hseal]
      refine ⟨rfl, ?_⟩
      intro pr hpr
      rw [hfut] at hpr
      exact absurd hpr (List.not_mem_nil _)
  · have hlt := inv.last_lt hemp
    have hr : t.roots ≤ t.items.length := inv.roots_le
    have hrs : List.Pairwise (fun a c => c < a)
        ((t.items.map (fun it => it.offset)).take t.roots) :=
      inv.roots_sorted
    have hcs : List.Pairwise (fun a c => a < c)
        ((t.items.map (fun it => it.offset)).drop t.roots) :=
      inv.children_sorted
    have hseal := seal_eq t pe hemp
    rcases hR : resolveLoop t.roots t.items t.future_child_offsets
      with ⟨eq, items1⟩
    rw [hR] at hseal
    cases eq with
    | some e2 =>
      have h2 : sealTree t pe =
          (some e2,
           { t with items := items1, future_child_offsets := [] }) :=
        hseal
      obtain ⟨po, ci, he, hmem, hdang⟩ := resolveLoop_err t.roots
        t.future_child_offsets t.items hr hrs hcs hR
      constructor
      · intro _
        refine ⟨po, ?_, ⟨ci, hmem⟩, ?_⟩
        · rw [h2, he]
        · intro it hmem2
          obtain ⟨j, hj, hej⟩ := List.getElem_of_mem hmem2
          exact fun hoff => hdang j hj (by rw [hej]; exact hoff)
      · intro hall
        obtain ⟨it, hmem2, hoff⟩ := hall (po, ci) hmem
        obtain ⟨j, hj, hej⟩ := List.getElem_of_mem hmem2
        exact absurd (show t.items[j].offset = po by rw [hej]; exact hoff)
          (hdang j hj)
    | none =>
      have h2 : sealTree t pe =
          (none,
           { t with items := updateAt items1 t.last_index (setNext pe),
                    future_child_offsets := [] }) := hseal
      constructor
      · rintro ⟨pr, hpr, hdang⟩
        have hderr := resolveLoop_dangling_err t.roots
          t.future_child_offsets t.items hr pr.1 pr.2 hpr
          (fun j hj hq => hdang t.items[j] (List.getElem_mem hj) hq)
        rw [hR] at hderr
        exact absurd rfl hderr
      · intro _
        rw [h2]
        refine ⟨rfl, ?_⟩
        intro pr hpr
        obtain ⟨j, hj, hoffj, hcij⟩ := resolveLoop_ok t.roots
          t.future_child_offsets t.items hr hrs hcs hR pr.1 pr.2 hpr
        have hlen1 : items1.length = t.items.length := by
          have h3 := resolveLoop_length t.roots t.future_child_offsets
            t.items
          rw [hR] at h3
          exact h3
        have hj2 : j < (updateAt items1 t.last_index (setNext pe)).length := by
          rw [length_updateAt]
          omega
        have hitoff : (updateAt items1 t.last_index
            (setNext pe))[j].offset = pr.1 := by
          by_cases hjl : j = t.last_index
          · subst hjl
            rw [updateAt_self_getElem (setNext pe) (by omega) hj2]
            exact hoffj
          · rw [updateAt_ne_getElem (setNext pe) (by omega) hj2 hjl]
            exact hoffj
        have hitch : pr.2 ∈ (updateAt items1 t.last_index
            (setNext pe))[j].children := by
          by_cases hjl : j = t.last_index
          · subst hjl
            rw [updateAt_self_getElem (setNext pe) (by omega) hj2]
            exact hcij
          · rw [updateAt_ne_getElem (setNext pe) (by omega) hj2 hjl]
            exact hcij
        have hdist2 : List.Pairwise (fun a c => a ≠ c)
            ((updateAt items1 t.last_index (setNext pe)).map
              (fun it => it.offset)) := by
          rw [offsets_updateAt_setNext]
          have hoffs : items1.map (fun it => it.offset) =
              t.items.map (fun it => it.offset) := by
            have h5 := resolveLoop_offsets t.roots t.future_child_offsets
              t.items
            rw [hR] at h5
            exact h5
          rw [hoffs]
          exact inv.off_distinct
        refine ⟨(updateAt items1 t.last_index (setNext pe))[j],
          ⟨List.getElem_mem hj2, hitoff, hitch⟩, ?_⟩
        intro it2 hmem2 hoff2
        exact offset_inj_of_distinct hdist2 hmem2 (List.getElem_mem hj2)
          (by rw [hoff2, hitoff])

theorem C1_witness :
    (build [Op.root 1 (), Op.child 10 2 (), Op.root 10 ()] =
      some (⟨[⟨10, 0, (), []⟩, ⟨1, 2, (), []⟩, ⟨2, 10, (), []⟩], 2, 0,
        [(10, 0)]⟩ : Tree Unit)) ∧
    (((∃ pr ∈ (⟨[⟨10, 0, (), []⟩, ⟨1, 2, (), []⟩, ⟨2, 10, (), []⟩], 2, 0,
          [(10, 0)]⟩ : Tree Unit).future_child_offsets,
        ∀ it ∈ (⟨[⟨10, 0, (), []⟩, ⟨1, 2, (), []⟩, ⟨2, 10, (), []⟩], 2, 0,
          [(10, 0)]⟩ : Tree Unit).items, it.offset ≠ pr.1) →
      ∃ b2 : Nat,
        (sealTree (⟨[⟨10, 0, (), []⟩, ⟨1, 2, (), []⟩, ⟨2, 10, (), []⟩],
          2, 0, [(10, 0)]⟩ : Tree Unit) 20).1 =
          some (.OutOfPackRefDelta b2) ∧
        (∃ ci, (b2, ci) ∈ (⟨[⟨10, 0, (), []⟩, ⟨1, 2, (), []⟩,
          ⟨2, 10, (), []⟩], 2, 0,
          [(10, 0)]⟩ : Tree Unit).future_child_offsets) ∧
        ∀ it ∈ (⟨[⟨10, 0, (), []⟩, ⟨1, 2, (), []⟩, ⟨2, 10, (), []⟩], 2, 0,
          [(10, 0)]⟩ : Tree Unit).items, it.offset ≠ b2) ∧
     ((∀ pr ∈ (⟨[⟨10, 0, (), []⟩, ⟨1, 2, (), []⟩, ⟨2, 10, (), []⟩], 2, 0,
          [(10, 0)]⟩ : Tree Unit).future_child_offsets,
        ∃ it ∈ (⟨[⟨10, 0, (), []⟩, ⟨1, 2, (), []⟩, ⟨2, 10, (), []⟩], 2, 0,
          [(10, 0)]⟩ : Tree Unit).items, it.offset = pr.1) →
      (sealTree (⟨[⟨10, 0, (), []⟩, ⟨1, 2, (), []⟩, ⟨2, 10, (), []⟩],
        2, 0, [(10, 0)]⟩ : Tree Unit) 20).1 = none ∧
      ∀ pr ∈ (⟨[⟨10, 0, (), []⟩, ⟨1, 2, (), []⟩, ⟨2, 10, (), []⟩], 2, 0,
          [(10, 0)]⟩ : Tree Unit).future_child_offsets,
        ∃ it, (it ∈ (sealTree (⟨[⟨10, 0, (), []⟩, ⟨1, 2, (), []⟩,
              ⟨2, 10, (), []⟩], 2, 0, [(10, 0)]⟩ : Tree Unit)
              20).2.items ∧
            it.offset = pr.1 ∧ pr.2 ∈ it.children) ∧
          ∀ it2 ∈ (sealTree (⟨[⟨10, 0, (), []⟩, ⟨1, 2, (), []⟩,
              ⟨2, 10, (), []⟩], 2, 0, [(10, 0)]⟩ : Tree Unit)
              20).2.items,
            it2.offset = pr.1 → it2 = it)) :=
  ⟨by decide,
   C1_seal_resolves_iff [Op.root 1 (), Op.child 10 2 (), Op.root 10 ()]
     (⟨[⟨10, 0, (), []⟩, ⟨1, 2, (), []⟩, ⟨2, 10, (), []⟩], 2, 0,
       [(10, 0)]⟩ : Tree Unit) 20 (by decide)⟩

end Delta

namespace Encode

/-- C4: code bug.  The fanout loop writes a counter only at a
first-byte transition and never fills skipped or trailing buckets, so
the emitted table is not cumulative: with a single entry whose id starts
with byte 0, every bucket (including bucket 0 and bucket 255, which must
equal the total count 1) stays 0; with first bytes `[0, 0, 5]`, buckets
1–4 and 5–255 stay 0 instead of carrying 2 and 3. -/
theorem C4_fanout_not_cumulative :
    fan_out_be [⟨1, 0, 0⟩] 0 = 0 ∧
    fan_out_be [⟨1, 0, 0⟩] 255 = 0 ∧
    ([(⟨1, 0, 0⟩ : Entry)].length = 1) ∧
    fan_out_be [⟨1, 0, 0⟩, ⟨2, 0, 0⟩, ⟨3, 5, 0⟩] 0 = 2 ∧
    fan_out_be [⟨1, 0, 0⟩, ⟨2, 0, 0⟩, ⟨3, 5, 0⟩] 1 = 0 ∧
    fan_out_be [⟨1, 0, 0⟩, ⟨2, 0, 0⟩, ⟨3, 5, 0⟩] 5 = 0 ∧
    fan_out_be [⟨1, 0, 0⟩, ⟨2, 0, 0⟩, ⟨3, 5, 0⟩] 255 = 0 := by
  decide

/-- C5: code bug.  In 64-bit mode the entry loop pushes a u32 slot only
for large offsets — small entries get no slot at all, so `to_write`s own
`assert_eq!(offsets_be.len(), entries.len())` fails — and the slot value
is `index & HIGH_BIT` (bitwise AND, always 0 for indices below 2^31)
instead of `index | HIGH_BIT`.  With entries at offsets 1 and 2^31 (id
order), the emitted table is `[0]`: one slot for two entries, equal
neither to the small offset nor to a high-bit-set index. -/
theorem C5_offset_table_bug :
    (offsets64_be [⟨1, 0, 0⟩, ⟨0x80000000, 1, 0⟩]).length = 1 ∧
    offset_table [⟨1, 0, 0⟩, ⟨0x80000000, 1, 0⟩] = [0] ∧
    ([(⟨1, 0, 0⟩ : Entry), ⟨0x80000000, 1, 0⟩].length = 2) ∧
    (offsets_be [⟨1, 0, 0⟩, ⟨0x80000000, 1, 0⟩]).length ≠
      ([(⟨1, 0, 0⟩ : Entry), ⟨0x80000000, 1, 0⟩]).length ∧
    Nat.land 0 HIGH_BIT ≠ Nat.lor 0 HIGH_BIT := by
  decide

/-- C6: code bug.  Whether the overflow section is written is decided by
the offset of the LAST id-sorted entry, not by the maximum offset: with
the large offset 2^31 in first position and a small offset last, no
overflow section is emitted although the maximum offset exceeds the
31-bit threshold, and the large offset is written truncated as a plain
u32 slot. -/
theorem C6_overflow_presence_bug :
    overflow_section_present [⟨0x80000000, 0, 0⟩, ⟨5, 1, 0⟩] = false ∧
    LARGE_OFFSET_THRESHOLD <
      (([(⟨0x80000000, 0, 0⟩ : Entry), ⟨5, 1, 0⟩].map
        (fun e => e.pack_offset)).foldr max 0) ∧
    needs_64bit_offsets [⟨0x80000000, 0, 0⟩, ⟨5, 1, 0⟩] = false ∧
    overflow_section_present [⟨5, 0, 0⟩, ⟨0x80000000, 1, 0⟩] = true := by
  decide

end Encode
